import Mathlib

/-!
Verification development for the pairwise genetic distance engine of
`cogent3/evolve/pairwise_distance.py`.

Sequences are index-encoded as integers, with negative entries marking
invalid characters.  A diversity matrix is a `K × K` matrix of natural
number counts.  The estimators return a 4-tuple
`(length, fraction_variable, dist, variance)` whose entries may each be
the Python `None`; we model the tuple as a structure of `Option ℝ` fields
and `None` as `Option.none`.  Exact rational arithmetic models the
float computations; `Real.log` and `Real.sqrt` model `numpy.log` /
`numpy.sqrt`.
-/

/-- The 4-tuple `(length, fraction_variable, dist, variance)` returned by
every distance estimator; each component may be Python `None`. -/
structure PairStats where
  length : Option ℝ
  fraction_variable : Option ℝ
  dist : Option ℝ
  variance : Option ℝ

/-- The `invalid = None, None, None, None` tuple shared by all estimators. -/
def invalidStats : PairStats := ⟨none, none, none, none⟩

/-- `matrix.sum()`: total of all counts of a diversity matrix. -/
def matTotal {K : ℕ} (M : Matrix (Fin K) (Fin K) ℕ) : ℕ := ∑ i, ∑ j, M i j

/-- `diag(matrix).sum()`: the trace of a diversity matrix. -/
def matTrace {K : ℕ} (M : Matrix (Fin K) (Fin K) ℕ) : ℕ := ∑ i, M i i

theorem matTrace_le_matTotal {K : ℕ} (M : Matrix (Fin K) (Fin K) ℕ) :
    matTrace M ≤ matTotal M := by
  unfold matTrace matTotal
  exact Finset.sum_le_sum fun i _ =>
    Finset.single_le_sum (f := fun j => M i j) (fun j _ => Nat.zero_le _) (Finset.mem_univ i)

/-- `_hamming`: total, proportion of changes, raw count of changes, and an
unimplemented (`None`) variance; the invalid tuple when `total == 0`. -/
def hammingStats {K : ℕ} (M : Matrix (Fin K) (Fin K) ℕ) : PairStats :=
  let total : ℚ := matTotal M
  let dist : ℚ := total - matTrace M
  if matTotal M = 0 then invalidStats
  else ⟨some (total : ℝ), some ((dist / total : ℚ) : ℝ), some (dist : ℝ), none⟩

/-- `_jc69_from_matrix`: the Jukes-Cantor 1969 distance.  Invalid when
`total == 0` or when the proportion of changes `p ≥ 0.75`. -/
noncomputable def jc69Stats {K : ℕ} (M : Matrix (Fin K) (Fin K) ℕ) : PairStats :=
  let total : ℚ := matTotal M
  let diffs : ℚ := total - matTrace M
  if matTotal M = 0 then invalidStats
  else
    let p : ℚ := diffs / total
    if 3 / 4 ≤ p then invalidStats
    else
      let factor : ℚ := 1 - 4 / 3 * p
      ⟨some (total : ℝ), some (p : ℝ),
       some (-3 * Real.log (factor : ℝ) / 4),
       some ((p * (1 - p) / (factor * factor * total) : ℚ) : ℝ)⟩

/-- The proportion of changes `(total - trace) / total` of a diversity
matrix, as exact rational arithmetic. -/
def propChanged {K : ℕ} (M : Matrix (Fin K) (Fin K) ℕ) : ℚ :=
  ((matTotal M : ℚ) - matTrace M) / matTotal M

theorem propChanged_nonneg {K : ℕ} (M : Matrix (Fin K) (Fin K) ℕ) :
    0 ≤ propChanged M := by
  unfold propChanged
  apply div_nonneg _ (Nat.cast_nonneg _)
  have := matTrace_le_matTotal M
  have : (matTrace M : ℚ) ≤ (matTotal M : ℚ) := by exact_mod_cast this
  linarith

theorem propChanged_le_one {K : ℕ} (M : Matrix (Fin K) (Fin K) ℕ)
    (h : matTotal M ≠ 0) : propChanged M ≤ 1 := by
  unfold propChanged
  have hpos : (0 : ℚ) < matTotal M := by exact_mod_cast Nat.pos_of_ne_zero h
  rw [div_le_one hpos]
  have : (0 : ℚ) ≤ (matTrace M : ℚ) := Nat.cast_nonneg _
  linarith

/-- The intermediate record returned by `_logdetcommon` in the valid case:
`(total, p, frequency, freqs, var_term)`.  `freqs0` is `frequency.sum(axis=0)`
(column sums) and `freqs1` is `frequency.sum(axis=1)` (row sums). -/
structure LogdetCommon (K : ℕ) where
  total : ℕ
  p : ℚ
  frequency : Matrix (Fin K) (Fin K) ℚ
  freqs0 : Fin K → ℚ
  freqs1 : Fin K → ℚ
  var_term : ℚ

/-- `_logdetcommon`: the computation shared by LogDet and paralinear.
Copies the diversity matrix, replaces exactly-zero diagonal entries by `0.5`,
normalises by the total, and fails (`none`, the all-`None` tuple) when the
total is zero, the sequences are identical (no off-diagonal mass), or the
determinant of the normalised frequency matrix is `≤ 0`. -/
noncomputable def logdetcommon {K : ℕ} (M : Matrix (Fin K) (Fin K) ℕ) :
    Option (LogdetCommon K) :=
  let totalN := matTotal M
  let diffsN := totalN - matTrace M
  if totalN = 0 then none
  else if diffsN = 0 then none
  else
    let patched : Matrix (Fin K) (Fin K) ℚ :=
      fun i j => if i = j ∧ M i j = 0 then 1 / 2 else (M i j : ℚ)
    let frequency : Matrix (Fin K) (Fin K) ℚ :=
      fun i j => patched i j / ∑ a, ∑ b, patched a b
    if frequency.det ≤ 0 then none
    else
      let Mm : Matrix (Fin K) (Fin K) ℚ := fun i j => (frequency⁻¹ i j) ^ 2
      some ⟨totalN, (diffsN : ℚ) / totalN, frequency,
            fun j => ∑ i, frequency i j, fun i => ∑ j, frequency i j,
            ∑ i, (Mm * frequency) i i⟩

/-- `_paralinear`: the paralinear (Lake 1994) distance from a diversity
matrix; the invalid tuple when `_logdetcommon` fails. -/
noncomputable def paralinearStats {K : ℕ} (M : Matrix (Fin K) (Fin K) ℕ) :
    PairStats :=
  match logdetcommon M with
  | none => invalidStats
  | some c =>
    let r : ℕ := K
    let d_xy : ℝ :=
      -Real.log ((c.frequency.det : ℝ) /
        Real.sqrt (∏ i, ((c.freqs0 i : ℝ) * (c.freqs1 i : ℝ)))) / r
    let var : ℝ :=
      ((c.var_term : ℝ) - ∑ i, 1 / Real.sqrt ((c.freqs0 i : ℝ) * (c.freqs1 i : ℝ))) /
        (r ^ 2 * c.total)
    ⟨some (c.total : ℝ), some (c.p : ℝ), some d_xy, some var⟩

/-- `_logdet`: the LogDet distance from a diversity matrix, with or without
the Tamura-Kumar adjustment (the adjusted mode leaves the variance `None`);
the invalid tuple when `_logdetcommon` fails. -/
noncomputable def logdetStats {K : ℕ} (M : Matrix (Fin K) (Fin K) ℕ)
    (use_tk_adjustment : Bool) : PairStats :=
  match logdetcommon M with
  | none => invalidStats
  | some c =>
    let r : ℕ := K
    if use_tk_adjustment then
      let coeff : ℝ :=
        ((∑ i, ((c.freqs0 i : ℝ) + (c.freqs1 i : ℝ)) ^ 2) / 4 - 1) / ((r : ℝ) - 1)
      let d_xy : ℝ :=
        coeff * Real.log ((c.frequency.det : ℝ) /
          Real.sqrt (∏ i, ((c.freqs0 i : ℝ) * (c.freqs1 i : ℝ))))
      ⟨some (c.total : ℝ), some (c.p : ℝ), some d_xy, none⟩
    else
      let d_xy : ℝ := -Real.log ((c.frequency.det : ℝ)) / r - Real.log r
      let var : ℝ := ((c.var_term : ℝ) / (r : ℝ) ^ 2 - 1) / c.total
      ⟨some (c.total : ℝ), some (c.p : ℝ), some d_xy, some var⟩

/-- `_tn93_from_matrix`: the Tamura-Nei 1993 distance.  The `freqs` argument
mirrors the pre-allocated buffer passed by the caller; it is overwritten
before use.  Invalid when the total is zero or any of the three log
arguments is `≤ 0`. -/
noncomputable def tn93Stats (M : Matrix (Fin 4) (Fin 4) ℕ) (_freqsBuf : Fin 4 → ℚ)
    (pur_indices pyr_indices : List (Fin 4))
    (pur_coords pyr_coords tv_coords : List (Fin 4 × Fin 4)) : PairStats :=
  let totalN := matTotal M
  let freqs : Fin 4 → ℚ :=
    fun k => (((∑ i, M i k) + ∑ j, M k j : ℕ) : ℚ) / (2 * totalN)
  if totalN = 0 then invalidStats
  else
    let total : ℚ := totalN
    let p : ℚ :=
      ((((pur_coords ++ pyr_coords ++ tv_coords).map fun c => M c.1 c.2).sum : ℕ) : ℚ) / total
    let freq_purs := (pur_indices.map freqs).sum
    let prod_purs := (pur_indices.map freqs).prod
    let freq_pyrs := (pyr_indices.map freqs).sum
    let prod_pyrs := (pyr_indices.map freqs).prod
    let pur_ts_diffs : ℚ := (((pur_coords.map fun c => M c.1 c.2).sum : ℕ) : ℚ) / total
    let pyr_ts_diffs : ℚ := (((pyr_coords.map fun c => M c.1 c.2).sum : ℕ) : ℚ) / total
    let tv_diffs : ℚ := (((tv_coords.map fun c => M c.1 c.2).sum : ℕ) : ℚ) / total
    let coeff1 := 2 * prod_purs / freq_purs
    let coeff2 := 2 * prod_pyrs / freq_pyrs
    let coeff3 := 2 * (freq_purs * freq_pyrs - prod_purs * freq_pyrs / freq_purs -
      prod_pyrs * freq_purs / freq_pyrs)
    let term1 := 1 - pur_ts_diffs / coeff1 - tv_diffs / (2 * freq_purs)
    let term2 := 1 - pyr_ts_diffs / coeff2 - tv_diffs / (2 * freq_pyrs)
    let term3 := 1 - tv_diffs / (2 * freq_purs * freq_pyrs)
    if term1 ≤ 0 ∨ term2 ≤ 0 ∨ term3 ≤ 0 then invalidStats
    else
      let dist : ℝ := -(coeff1 : ℝ) * Real.log (term1 : ℝ) -
        (coeff2 : ℝ) * Real.log (term2 : ℝ) - (coeff3 : ℝ) * Real.log (term3 : ℝ)
      let v1 := 1 / term1
      let v2 := 1 / term2
      let v3 := 1 / term3
      let v4 := coeff1 * v1 / (2 * freq_purs) + coeff2 * v2 / (2 * freq_pyrs) +
        coeff3 * v3 / (2 * freq_purs * freq_pyrs)
      let var := (v1 ^ 2 * pur_ts_diffs + v2 ^ 2 * pyr_ts_diffs + v4 ^ 2 * tv_diffs -
        (v1 * pur_ts_diffs + v2 * pyr_ts_diffs + v4 * tv_diffs) ^ 2) / total
      ⟨some (total : ℝ), some (p : ℝ), some dist, some ((var : ℚ) : ℝ)⟩

/-- The spec's description of the LogDet/paralinear frequency matrix: copy
the diversity matrix, replace every exactly-zero diagonal entry with `0.5`,
then normalise by the total sum to form a probability matrix. -/
def freqSpec {K : ℕ} (M : Matrix (Fin K) (Fin K) ℕ) : Matrix (Fin K) (Fin K) ℚ :=
  let patched : Matrix (Fin K) (Fin K) ℚ :=
    fun i j => if i = j ∧ M i j = 0 then 1 / 2 else (M i j : ℚ)
  fun i j => patched i j / ∑ a, ∑ b, patched a b

/-- `paired[paired.min(axis=1) >= 0]`: the positionally paired indices of two
index-encoded sequences, restricted to positions where neither index is
negative (the invalid sentinel is negative). -/
def pairedValid (s1 s2 : List ℤ) : List (ℤ × ℤ) :=
  (s1.zip s2).filter fun q => 0 ≤ min q.1 q.2

/-- `_fill_diversity_matrix`: starting from a zero matrix, increment cell
`(a, b)` once for every jointly-valid position where the first sequence has
index `a` and the second has index `b`.  The matrix is modelled as a map
from integer coordinate pairs to counts. -/
def fill_diversity_matrix (s1 s2 : List ℤ) : ℤ × ℤ → ℕ :=
  (pairedValid s1 s2).foldl
    (fun m q => fun r => if r = q then m q + 1 else m r) (fun _ => 0)

/-- The `K × K` diversity matrix of a sequence pair, as read back from the
filled count map. -/
def divMatrix (K : ℕ) (s1 s2 : List ℤ) : Matrix (Fin K) (Fin K) ℕ :=
  fun a b => fill_diversity_matrix s1 s2 ((a : ℤ), (b : ℤ))

/-- `(matrix[off_diag] > 0).any()`: whether some off-diagonal entry of the
diversity matrix is positive. -/
def hasOffDiag {K : ℕ} (M : Matrix (Fin K) (Fin K) ℕ) : Bool :=
  decide (∃ a b, a ≠ b ∧ 0 < M a b)

/-- The mutable state threaded through `_PairwiseDistance.run`: the
`duped` association in append order (`(representative, duplicate)` index
pairs), the sparse name-keyed result store (a Python dict modelled as a
partial map), and the fractions passed to the progress display. -/
structure RunState (α : Type) where
  duped : List (ℕ × ℕ)
  dists : String × String → Option α
  reports : List ℚ

/-- The set `dupes` of indices marked duplicate, recovered from `duped`. -/
def RunState.dupes {α : Type} (st : RunState α) : List ℕ := st.duped.map Prod.snd

/-- `self._dists[(name_1, name_2)] = result; self._dists[(name_2, name_1)] =
result`: store one result under both orderings of the name pair. -/
def insert2 {α : Type} (n1 n2 : String) (v : α)
    (m : String × String → Option α) : String × String → Option α :=
  fun q => if q = (n2, n1) then some v else if q = (n1, n2) then some v else m q

/-- One iteration of the inner `for j in range(i + 1, len(names))` loop of
`run`: skip marked duplicates, report progress, fill the diversity matrix,
either record a new duplicate or store the estimator result symmetrically. -/
def processPair {α : Type} (K : ℕ) (f : Matrix (Fin K) (Fin K) ℕ → α)
    (seqs : List (List ℤ)) (names : List String) (i : ℕ)
    (st : RunState α) (j : ℕ) : RunState α :=
  if j ∈ st.dupes then st
  else
    let n : ℕ := names.length
    let toDo : ℚ := ((n : ℚ) * (n : ℚ) - 1) / 2
    let st1 : RunState α :=
      { st with reports := st.reports ++ [(st.reports.length : ℚ) / toDo] }
    let M := divMatrix K (seqs.getD i []) (seqs.getD j [])
    if hasOffDiag M = false then { st1 with duped := st1.duped ++ [(i, j)] }
    else { st1 with
           dists := insert2 (names.getD i "") (names.getD j "") (f M) st1.dists }

/-- One iteration of the outer `for i in range(len(names) - 1)` loop of
`run`: skip marked duplicates, then run the inner loop over `j`. -/
def processRow {α : Type} (K : ℕ) (f : Matrix (Fin K) (Fin K) ℕ → α)
    (seqs : List (List ℤ)) (names : List String)
    (st : RunState α) (i : ℕ) : RunState α :=
  if i ∈ st.dupes then st
  else (List.range' (i + 1) (names.length - (i + 1))).foldl
    (processPair K f seqs names i) st

/-- The full double loop of `_PairwiseDistance.run`, starting from an empty
store, no duplicates and no progress reports. -/
def runLoop {α : Type} (K : ℕ) (f : Matrix (Fin K) (Fin K) ℕ → α)
    (seqs : List (List ℤ)) (names : List String) : RunState α :=
  (List.range (names.length - 1)).foldl (processRow K f seqs names)
    ⟨[], fun _ => none, []⟩

/-- The duplicate names recorded by a run (`self._dupes`, as names). -/
def dupeNames {α : Type} (st : RunState α) (names : List String) : List String :=
  st.dupes.map fun d => names.getD d ""

/-- The final clean-up of `run`: when duplicates were found, delete every
stored key that mentions a duplicate name. -/
def runClean {α : Type} (st : RunState α) (names : List String) :
    String × String → Option α :=
  if st.duped = [] then st.dists
  else fun q =>
    if q.1 ∈ dupeNames st names ∨ q.2 ∈ dupeNames st names then none
    else st.dists q

/-- The `(duplicate name, representative name)` pairs, in the order the
`redundants` dict of `_expand` is populated from `self.duplicated`. -/
def redundantPairs {α : Type} (st : RunState α) (names : List String) :
    List (String × String) :=
  st.duped.map fun rd => (names.getD rd.2 "", names.getD rd.1 "")

/-- Projecting one statistic out of the sparse result store, as the dict
comprehensions `{k: self._dists[k].<stat> for k in self._dists}` do; values
of the resulting dict may themselves be Python `None`. -/
def statView {α : Type} (g : α → Option ℝ) (m : String × String → Option α) :
    String × String → Option (Option ℝ) :=
  fun q => (m q).map g

/-- One pass of `_expand` for a single `(add, alias)` entry of `redundants`:
for every name other than `add`, write under both orderings the value of the
representative's pair (`0` when the name is the representative itself,
`pwise.get((alias, name), None)` otherwise). -/
def expandPass (names : List String)
    (p : String × String → Option (Option ℝ)) (ar : String × String) :
    String × String → Option (Option ℝ) :=
  names.foldl
    (fun p name =>
      if name = ar.1 then p
      else
        let val : Option ℝ :=
          if name = ar.2 then some 0 else (p (ar.2, name)).join
        fun q => if q = (ar.1, name) ∨ q = (name, ar.1) then some val else p q)
    p

/-- `_expand`: add entries for every recorded duplicate, one pass per
`redundants` item. -/
def expandAll (names : List String) (reds : List (String × String))
    (p : String × String → Option (Option ℝ)) :
    String × String → Option (Option ℝ) :=
  reds.foldl (expandPass names) p

/-- `get_pairwise_distances` with `include_duplicates=True` (and likewise the
per-statistic table properties): run, clean, project one statistic, then
expand across duplicates. -/
def expandedView {α : Type} (K : ℕ) (f : Matrix (Fin K) (Fin K) ℕ → α)
    (g : α → Option ℝ) (seqs : List (List ℤ)) (names : List String) :
    String × String → Option (Option ℝ) :=
  let st := runLoop K f seqs names
  expandAll names (redundantPairs st names) (statView g (runClean st names))

/-- `numpy.sqrt` as applied by the `stderr` view to a stored variance: a
numeric value yields its square root, Python `None` raises a `TypeError`
(modelled as `Except.error`). -/
noncomputable def np_sqrt (v : Option ℝ) : Except Unit ℝ :=
  match v with
  | some x => Except.ok (Real.sqrt x)
  | none => Except.error ()

/-- The five pairwise distance calculator classes. -/
inductive CalcKind
  | paralinear
  | logdet
  | jc69
  | tn93
  | hamming
deriving DecidableEq

/-- The `_calculators` registry, in source order. -/
def calculatorsTable : List (String × CalcKind) :=
  [("paralinear", CalcKind.paralinear), ("logdet", CalcKind.logdet),
   ("jc69", CalcKind.jc69), ("tn93", CalcKind.tn93),
   ("hamming", CalcKind.hamming)]

/-- Python's `str.lower`, character by character. -/
def strLower (s : String) : String := ⟨s.data.map Char.toLower⟩

/-- `get_calculator`: lower-case the requested name, return the registered
calculator class, or raise `ValueError` for an unknown name. -/
def get_calculator (name : String) : Except String CalcKind :=
  let nm := strLower name
  match calculatorsTable.find? (fun c => c.1 == nm) with
  | some c => Except.ok c.2
  | none => Except.error ("Unknown pairwise distance calculator " ++ nm)

/-- A concrete diversity matrix (all entries `1`, so `total = 4`,
`trace = 2`) on which the hamming statistics separate `dist` from the
proportion of changes. -/
def hammingCex : Matrix (Fin 2) (Fin 2) ℕ := fun _ _ => 1

/-- C1 counterexample: on `hammingCex` the hamming estimator returns
`dist = 2` (the raw count of changes) while the proportion of changes is
`1/2`; so `dist` is neither the proportion nor inside `[0, 1]`. -/
theorem hamming_dist_is_count_not_proportion :
    matTotal hammingCex ≠ 0 ∧
    (hammingStats hammingCex).dist = some 2 ∧
    (hammingStats hammingCex).fraction_variable = some (1 / 2) ∧
    (hammingStats hammingCex).dist ≠ (hammingStats hammingCex).fraction_variable ∧
    ¬∃ d, (hammingStats hammingCex).dist = some d ∧ 0 ≤ d ∧ d ≤ 1 := by
  have htot : matTotal hammingCex = 4 := by decide
  have htr : matTrace hammingCex = 2 := by decide
  have h1 : (hammingStats hammingCex).dist = some 2 := by
    simp [hammingStats, htot, htr]
    norm_num
  have h2 : (hammingStats hammingCex).fraction_variable = some (1 / 2) := by
    simp [hammingStats, htot, htr]
    norm_num
  refine ⟨by simp [htot], h1, h2, by simp [h1, h2]; norm_num, ?_⟩
  rintro ⟨d, hd, _, hle⟩
  rw [h1] at hd
  rw [Option.some_inj] at hd
  subst hd
  norm_num at hle

/-- C1 (amended): for every diversity matrix with `total > 0`, `_hamming`
returns the matrix total, the proportion of changes
`p = (total - trace)/total` with `p ∈ [0, 1]`, the raw count of changes
`total - trace` (equal to `p · total`, not to `p`) as `dist`, and no
variance. -/
theorem hamming_spec {K : ℕ} (M : Matrix (Fin K) (Fin K) ℕ)
    (h : matTotal M ≠ 0) :
    hammingStats M =
      ⟨some (matTotal M : ℝ), some ((propChanged M : ℚ) : ℝ),
       some ((matTotal M : ℝ) - (matTrace M : ℝ)), none⟩ ∧
    0 ≤ propChanged M ∧ propChanged M ≤ 1 ∧
    ((matTotal M : ℝ) - (matTrace M : ℝ)) = ((propChanged M : ℚ) : ℝ) * (matTotal M : ℝ) := by
  have hpos : (0 : ℚ) < (matTotal M : ℚ) := by exact_mod_cast Nat.pos_of_ne_zero h
  refine ⟨?_, propChanged_nonneg M, propChanged_le_one M h, ?_⟩
  · simp only [hammingStats, if_neg h, propChanged]
    norm_cast
  · unfold propChanged
    push_cast
    field_simp

/-- Witness for `hamming_spec` at the concrete matrix `hammingCex`. -/
theorem hamming_spec_witness :
    matTotal hammingCex ≠ 0 ∧ 0 ≤ propChanged hammingCex ∧ propChanged hammingCex ≤ 1 :=
  ⟨by decide, (hamming_spec hammingCex (by decide)).2.1,
   (hamming_spec hammingCex (by decide)).2.2.1⟩

/-- C2 (amended): for every diversity matrix with `total > 0`, JC69 returns
the invalid tuple iff the proportion of changes is `≥ 0.75`; below the
boundary it returns exactly the JC69 distance and variance formulas, and the
distance is nonnegative — strictly positive whenever `p > 0` (it is `0`, not
positive, at `p = 0`). -/
theorem jc69_spec {K : ℕ} (M : Matrix (Fin K) (Fin K) ℕ)
    (h : matTotal M ≠ 0) :
    (3 / 4 ≤ propChanged M → jc69Stats M = invalidStats) ∧
    (propChanged M < 3 / 4 →
      jc69Stats M =
        ⟨some (matTotal M : ℝ), some ((propChanged M : ℚ) : ℝ),
         some (-3 * Real.log ((1 - 4 / 3 * propChanged M : ℚ) : ℝ) / 4),
         some ((propChanged M * (1 - propChanged M) /
           ((1 - 4 / 3 * propChanged M) * (1 - 4 / 3 * propChanged M) * matTotal M) : ℚ) : ℝ)⟩ ∧
      0 ≤ -3 * Real.log ((1 - 4 / 3 * propChanged M : ℚ) : ℝ) / 4 ∧
      (0 < propChanged M →
        0 < -3 * Real.log ((1 - 4 / 3 * propChanged M : ℚ) : ℝ) / 4)) := by
  have hp0 : 0 ≤ propChanged M := propChanged_nonneg M
  constructor
  · intro hge
    simp only [jc69Stats, if_neg h, propChanged] at *
    rw [if_pos hge]
  · intro hlt
    have hfacpos : (0 : ℚ) < 1 - 4 / 3 * propChanged M := by nlinarith
    have hfacle : (1 : ℚ) - 4 / 3 * propChanged M ≤ 1 := by nlinarith
    have hfacposR : (0 : ℝ) < ((1 - 4 / 3 * propChanged M : ℚ) : ℝ) := by
      exact_mod_cast hfacpos
    have hfacleR : ((1 - 4 / 3 * propChanged M : ℚ) : ℝ) ≤ 1 := by exact_mod_cast hfacle
    have hlog : Real.log ((1 - 4 / 3 * propChanged M : ℚ) : ℝ) ≤ 0 :=
      Real.log_nonpos (le_of_lt hfacposR) hfacleR
    refine ⟨?_, by linarith, ?_⟩
    · simp only [jc69Stats, if_neg h, propChanged] at *
      rw [if_neg (not_le.mpr hlt)]
      norm_cast
    · intro hppos
      have hfaclt : (1 : ℚ) - 4 / 3 * propChanged M < 1 := by nlinarith
      have hfacltR : ((1 - 4 / 3 * propChanged M : ℚ) : ℝ) < 1 := by exact_mod_cast hfaclt
      have hlogneg : Real.log ((1 - 4 / 3 * propChanged M : ℚ) : ℝ) < 0 :=
        Real.log_neg hfacposR hfacltR
      linarith

/-- A concrete diversity matrix with `total = 1` and no changes, so the
JC69 proportion of changes is `0`. -/
def jc69Cex : Matrix (Fin 2) (Fin 2) ℕ := fun i j => if i = 0 ∧ j = 0 then 1 else 0

/-- C2 counterexample: on `jc69Cex` the total is positive and the proportion
of changes is `0 < 0.75`, yet the returned distance is `0`, not a positive
number. -/
theorem jc69_dist_zero_at_p_zero :
    matTotal jc69Cex ≠ 0 ∧ propChanged jc69Cex < 3 / 4 ∧
    (jc69Stats jc69Cex).dist = some 0 ∧
    ¬∃ d, (jc69Stats jc69Cex).dist = some d ∧ 0 < d := by
  have htot : matTotal jc69Cex = 1 := by decide
  have htr : matTrace jc69Cex = 1 := by decide
  have hprop : propChanged jc69Cex = 0 := by
    unfold propChanged
    rw [htot, htr]
    norm_num
  have hd : (jc69Stats jc69Cex).dist = some 0 := by
    simp only [jc69Stats, htot, htr]
    norm_num [Real.log_one]
  refine ⟨by simp [htot], by rw [hprop]; norm_num, hd, ?_⟩
  rintro ⟨d, hdd, hdpos⟩
  rw [hd, Option.some_inj] at hdd
  subst hdd
  exact lt_irrefl 0 hdpos

/-- Witness for `jc69_spec` at a concrete matrix with `p = 1/4`. -/
def jc69Wit : Matrix (Fin 2) (Fin 2) ℕ := fun i j => if i = j then 0 else if i = 0 then 3 else 1

/-- Witness for `jc69_spec`: at `jc69Wit` the total is `4`, `p = 1` exceeds
the boundary and the estimator is invalid. -/
theorem jc69_spec_witness :
    matTotal jc69Wit ≠ 0 ∧ 3 / 4 ≤ propChanged jc69Wit ∧ jc69Stats jc69Wit = invalidStats := by
  have htot : matTotal jc69Wit = 4 := by decide
  have htr : matTrace jc69Wit = 0 := by decide
  have hprop : propChanged jc69Wit = 1 := by unfold propChanged; rw [htot, htr]; norm_num
  refine ⟨by simp [htot], by rw [hprop]; norm_num, ?_⟩
  exact (jc69_spec jc69Wit (by simp [htot])).1 (by rw [hprop]; norm_num)

/-- C5: `_logdetcommon` fails exactly when the total is zero, or the
off-diagonal mass is zero (`trace = total`), or the determinant of the
normalised frequency matrix (`freqSpec`, the copied matrix with exactly-zero
diagonal entries replaced by `0.5`, normalised by its sum) is `≤ 0`; and in
the valid case the frequency matrix it returns is exactly `freqSpec`. -/
theorem logdetcommon_spec {K : ℕ} (M : Matrix (Fin K) (Fin K) ℕ) :
    (logdetcommon M = none ↔
      matTotal M = 0 ∨ matTrace M = matTotal M ∨ (freqSpec M).det ≤ 0) ∧
    (¬(matTotal M = 0 ∨ matTrace M = matTotal M ∨ (freqSpec M).det ≤ 0) →
      (logdetcommon M).elim False fun c => c.frequency = freqSpec M) := by
  have hle := matTrace_le_matTotal M
  constructor
  · simp only [logdetcommon, freqSpec]
    by_cases h1 : matTotal M = 0
    · simp [h1]
    · by_cases h2 : matTotal M - matTrace M = 0
      · have hh : matTrace M = matTotal M := le_antisymm hle (Nat.le_of_sub_eq_zero h2)
        simp [h1, h2, hh]
      · have hh : ¬matTrace M = matTotal M := by omega
        simp only [if_neg h1, if_neg h2]
        split_ifs with h3
        · exact iff_of_true rfl (Or.inr (Or.inr h3))
        · refine iff_of_false (by simp) ?_
          rintro (hcon | hcon | hcon)
          · exact h1 hcon
          · exact hh hcon
          · exact h3 hcon
  · intro hc
    push_neg at hc
    obtain ⟨hc1, hc2, hc3⟩ := hc
    have h2 : ¬(matTotal M - matTrace M = 0) := by omega
    simp only [freqSpec] at hc3
    simp only [logdetcommon, freqSpec, if_neg hc1, if_neg h2, if_neg (not_le.mpr hc3)]
    rfl

/-- A concrete diversity matrix (`2` on the diagonal, `1` off it) on which
`_logdetcommon` succeeds: the normalised determinant is `1/12 > 0`. -/
def logdetWit : Matrix (Fin 2) (Fin 2) ℕ := fun i j => if i = j then 2 else 1

/-- Witness for `logdetcommon_spec` at the concrete matrix `logdetWit`. -/
theorem logdetcommon_spec_witness :
    ¬(matTotal logdetWit = 0 ∨ matTrace logdetWit = matTotal logdetWit ∨
        (freqSpec logdetWit).det ≤ 0) ∧
    (logdetcommon logdetWit).elim False (fun c => c.frequency = freqSpec logdetWit) := by
  have hdet : (freqSpec logdetWit).det = 1 / 12 := by
    simp only [freqSpec, logdetWit, Matrix.det_fin_two, Fin.sum_univ_two]
    norm_num
  have hcond : ¬(matTotal logdetWit = 0 ∨ matTrace logdetWit = matTotal logdetWit ∨
      (freqSpec logdetWit).det ≤ 0) := by
    push_neg
    refine ⟨by decide, by decide, ?_⟩
    rw [hdet]
    norm_num
  exact ⟨hcond, (logdetcommon_spec logdetWit).2 hcond⟩

/-- C6: a diversity matrix with zero total (no jointly-valid aligned sites)
makes every one of the five estimators return the one shared invalid tuple —
the same marker as a numerical failure. -/
theorem total_zero_all_invalid {K : ℕ} (M : Matrix (Fin K) (Fin K) ℕ)
    (M4 : Matrix (Fin 4) (Fin 4) ℕ) (use_tk : Bool) (buf : Fin 4 → ℚ)
    (pui pyi : List (Fin 4)) (puc pyc tvc : List (Fin 4 × Fin 4))
    (h : matTotal M = 0) (h4 : matTotal M4 = 0) :
    hammingStats M = invalidStats ∧ jc69Stats M = invalidStats ∧
    tn93Stats M4 buf pui pyi puc pyc tvc = invalidStats ∧
    logdetStats M use_tk = invalidStats ∧ paralinearStats M = invalidStats := by
  have hld : logdetcommon M = none := by simp [logdetcommon, h]
  exact ⟨by simp [hammingStats, h], by simp [jc69Stats, h],
         by simp [tn93Stats, h4], by simp [logdetStats, hld],
         by simp [paralinearStats, hld]⟩

/-- Witness for `total_zero_all_invalid` at the all-zero diversity matrices. -/
theorem total_zero_all_invalid_witness :
    hammingStats (fun _ _ => 0 : Matrix (Fin 2) (Fin 2) ℕ) = invalidStats ∧
    jc69Stats (fun _ _ => 0 : Matrix (Fin 2) (Fin 2) ℕ) = invalidStats ∧
    tn93Stats (fun _ _ => 0 : Matrix (Fin 4) (Fin 4) ℕ) (fun _ => 0) [] [] [] [] [] =
      invalidStats ∧
    logdetStats (fun _ _ => 0 : Matrix (Fin 2) (Fin 2) ℕ) true = invalidStats ∧
    paralinearStats (fun _ _ => 0 : Matrix (Fin 2) (Fin 2) ℕ) = invalidStats :=
  total_zero_all_invalid _ _ true (fun _ => 0) [] [] [] [] []
    (by decide) (by decide)

/-- C10: `get_calculator` lower-cases the requested name first, so every
case variant of the five identifiers yields the corresponding calculator
class; every other string raises `ValueError`; and the function always
either returns a calculator or raises. -/
theorem get_calculator_spec (s : String) :
    (strLower s = "hamming" → get_calculator s = Except.ok CalcKind.hamming) ∧
    (strLower s = "jc69" → get_calculator s = Except.ok CalcKind.jc69) ∧
    (strLower s = "tn93" → get_calculator s = Except.ok CalcKind.tn93) ∧
    (strLower s = "logdet" → get_calculator s = Except.ok CalcKind.logdet) ∧
    (strLower s = "paralinear" → get_calculator s = Except.ok CalcKind.paralinear) ∧
    (strLower s ∉ ["hamming", "jc69", "tn93", "logdet", "paralinear"] →
      ∃ e, get_calculator s = Except.error e) ∧
    ((∃ k, get_calculator s = Except.ok k) ∨ ∃ e, get_calculator s = Except.error e) := by
  refine ⟨?_, ?_, ?_, ?_, ?_, ?_, ?_⟩
  · intro h; simp only [get_calculator]; rw [h]; rfl
  · intro h; simp only [get_calculator]; rw [h]; rfl
  · intro h; simp only [get_calculator]; rw [h]; rfl
  · intro h; simp only [get_calculator]; rw [h]; rfl
  · intro h; simp only [get_calculator]; rw [h]; rfl
  · intro h
    simp only [List.mem_cons, List.not_mem_nil, or_false, not_or] at h
    obtain ⟨h1, h2, h3, h4, h5⟩ := h
    have hfind : calculatorsTable.find? (fun c => c.1 == strLower s) = none := by
      rw [List.find?_eq_none]
      intro x hx
      simp only [calculatorsTable, List.mem_cons, List.not_mem_nil, or_false] at hx
      rcases hx with hx | hx | hx | hx | hx <;> subst hx <;> simp only [beq_iff_eq]
      · exact fun hh => h5 hh.symm
      · exact fun hh => h4 hh.symm
      · exact fun hh => h2 hh.symm
      · exact fun hh => h3 hh.symm
      · exact fun hh => h1 hh.symm
    simp only [get_calculator]
    rw [hfind]
    exact ⟨_, rfl⟩
  · simp only [get_calculator]
    rcases hfind : calculatorsTable.find? (fun c => c.1 == strLower s) with _ | c
    · rw [hfind]
      exact Or.inr ⟨_, rfl⟩
    · rw [hfind]
      exact Or.inl ⟨c.2, rfl⟩

/-- Witness for `get_calculator_spec`: mixed-case `"HaMMing"` resolves to
the hamming calculator and `"foo"` is rejected. -/
theorem get_calculator_spec_witness :
    get_calculator "HaMMing" = Except.ok CalcKind.hamming ∧
    ∃ e, get_calculator "foo" = Except.error e :=
  ⟨(get_calculator_spec "HaMMing").1 (by decide),
   (get_calculator_spec "foo").2.2.2.2.2.1 (by decide)⟩

theorem foldl_incr_count (l : List (ℤ × ℤ)) :
    ∀ (m : ℤ × ℤ → ℕ) (q : ℤ × ℤ),
      (l.foldl (fun m q => fun r => if r = q then m q + 1 else m r) m) q =
        m q + l.count q := by
  induction l with
  | nil => intro m q; simp
  | cons p l ih =>
    intro m q
    rw [List.foldl_cons, ih, List.count_cons]
    by_cases hq : q = p
    · subst hq
      simp only [if_pos rfl, beq_self_eq_true, if_true]
      omega
    · have hq2 : ¬p = q := fun h => hq h.symm
      simp [hq, hq2]

theorem fill_diversity_matrix_count (s1 s2 : List ℤ) (q : ℤ × ℤ) :
    fill_diversity_matrix s1 s2 q = (pairedValid s1 s2).count q := by
  unfold fill_diversity_matrix
  rw [foldl_incr_count]
  omega

theorem sum_ite_coe_eq {K : ℕ} (x : ℤ) (h0 : 0 ≤ x) (hK : x < K) (v : ℕ) :
    (∑ a : Fin K, if ((a : ℕ) : ℤ) = x then v else 0) = v := by
  have hK' : x.toNat < K := by omega
  have hcond : ∀ a : Fin K, (((a : ℕ) : ℤ) = x) = (a = ⟨x.toNat, hK'⟩) := by
    intro a
    apply propext
    constructor
    · intro hh
      apply Fin.ext
      simp only []
      omega
    · intro hh
      subst hh
      simpa using Int.toNat_of_nonneg h0
  calc (∑ a : Fin K, if ((a : ℕ) : ℤ) = x then v else 0)
      = ∑ a : Fin K, if a = ⟨x.toNat, hK'⟩ then v else 0 :=
        Finset.sum_congr rfl fun a _ => by simp only [hcond]
    _ = v := by rw [Finset.sum_ite_eq' Finset.univ _ (fun _ => v)]; simp

theorem sum_count_pairs {K : ℕ} (l : List (ℤ × ℤ))
    (hl : ∀ q ∈ l, (0 ≤ q.1 ∧ q.1 < K) ∧ (0 ≤ q.2 ∧ q.2 < K)) :
    (∑ a : Fin K, ∑ b : Fin K, l.count (((a : ℕ) : ℤ), ((b : ℕ) : ℤ))) = l.length := by
  induction l with
  | nil => simp
  | cons p l ih =>
    have hp := hl p (by simp)
    have hone : (∑ a : Fin K, ∑ b : Fin K,
        if ((((a : ℕ) : ℤ), ((b : ℕ) : ℤ)) : ℤ × ℤ) = p then 1 else 0) = 1 := by
      have hinner : ∀ a : Fin K,
          (∑ b : Fin K, if ((((a : ℕ) : ℤ), ((b : ℕ) : ℤ)) : ℤ × ℤ) = p then 1 else 0) =
            if ((a : ℕ) : ℤ) = p.1 then 1 else 0 := by
        intro a
        by_cases ha : ((a : ℕ) : ℤ) = p.1
        · rw [if_pos ha]
          have hcnd : ∀ b : Fin K,
              (((((a : ℕ) : ℤ), ((b : ℕ) : ℤ)) : ℤ × ℤ) = p) = (((b : ℕ) : ℤ) = p.2) := by
            intro b
            apply propext
            rw [Prod.ext_iff]
            simp [ha]
          rw [show (∑ b : Fin K, if ((((a : ℕ) : ℤ), ((b : ℕ) : ℤ)) : ℤ × ℤ) = p then 1 else 0) =
                ∑ b : Fin K, if ((b : ℕ) : ℤ) = p.2 then 1 else 0 from
              Finset.sum_congr rfl fun b _ => by simp only [hcnd]]
          exact sum_ite_coe_eq p.2 hp.2.1 hp.2.2 1
        · rw [if_neg ha]
          apply Finset.sum_eq_zero
          intro b _
          rw [if_neg]
          intro hh
          rw [Prod.ext_iff] at hh
          exact ha hh.1
      rw [Finset.sum_congr rfl fun a _ => hinner a]
      exact sum_ite_coe_eq p.1 hp.1.1 hp.1.2 1
    have hrest : ∀ q ∈ l, (0 ≤ q.1 ∧ q.1 < K) ∧ (0 ≤ q.2 ∧ q.2 < K) :=
      fun q hq => hl q (by simp [hq])
    calc (∑ a : Fin K, ∑ b : Fin K, (p :: l).count (((a : ℕ) : ℤ), ((b : ℕ) : ℤ)))
        = ∑ a : Fin K, ∑ b : Fin K, (l.count (((a : ℕ) : ℤ), ((b : ℕ) : ℤ)) +
            if ((((a : ℕ) : ℤ), ((b : ℕ) : ℤ)) : ℤ × ℤ) = p then 1 else 0) := by
          refine Finset.sum_congr rfl fun a _ => Finset.sum_congr rfl fun b _ => ?_
          rw [List.count_cons]
          simp only [beq_iff_eq]
          congr 1
          exact if_congr (Iff.intro (fun h => h.symm) (fun h => h.symm)) rfl rfl
      _ = l.length + 1 := by
          rw [Finset.sum_congr rfl fun a (_ : a ∈ Finset.univ) => Finset.sum_add_distrib]
          rw [Finset.sum_add_distrib, ih hrest, hone]
      _ = (p :: l).length := by simp

theorem pairedValid_length (s1 : List ℤ) :
    ∀ s2 : List ℤ, s1.length = s2.length →
      (pairedValid s1 s2).length =
        ((List.range s1.length).countP fun p =>
          decide (0 ≤ s1.getD p (-9) ∧ 0 ≤ s2.getD p (-9))) := by
  induction s1 with
  | nil => intro s2 h; simp [pairedValid]
  | cons x s1 ih =>
    intro s2 h
    match s2 with
    | [] => simp at h
    | y :: s2 =>
      simp only [List.length_cons, Nat.add_right_cancel_iff] at h
      have hrange : List.range (s1.length + 1) =
          0 :: (List.range s1.length).map Nat.succ := List.range_succ_eq_map s1.length
      have hmap : ((List.range s1.length).countP
          ((fun p => decide (0 ≤ (x :: s1).getD p (-9) ∧ 0 ≤ (y :: s2).getD p (-9))) ∘
            Nat.succ)) =
          (List.range s1.length).countP
            (fun p => decide (0 ≤ s1.getD p (-9) ∧ 0 ≤ s2.getD p (-9))) := by
        apply List.countP_congr
        intro p _
        simp [Function.comp, List.getD_cons_succ]
      have hstep : pairedValid (x :: s1) (y :: s2) =
          if 0 ≤ min x y then (x, y) :: pairedValid s1 s2 else pairedValid s1 s2 := by
        unfold pairedValid
        rw [List.zip_cons_cons, List.filter_cons]
        by_cases hxy : 0 ≤ min x y
        · simp [hxy]
        · simp [hxy]
      rw [hstep]
      simp only [List.length_cons, hrange, List.countP_cons, List.countP_map]
      rw [hmap]
      by_cases hxy : 0 ≤ min x y
      · have hx : 0 ≤ x := le_trans hxy (min_le_left x y)
        have hy : 0 ≤ y := le_trans hxy (min_le_right x y)
        rw [if_pos hxy, List.length_cons, ih s2 h]
        simp [hx, hy]
      · have hnot : ¬(0 ≤ x ∧ 0 ≤ y) := fun hcon => hxy (le_min hcon.1 hcon.2)
        rw [if_neg hxy, ih s2 h]
        simp [hnot]

/-- C9: for equal-length index-encoded sequences whose indices lie below the
alphabet size `K`, the sum of all entries of the diversity matrix equals the
number of aligned positions at which neither sequence holds the (negative)
invalid sentinel. -/
theorem divMatrix_total_eq_valid_positions (K : ℕ) (s1 s2 : List ℤ)
    (hlen : s1.length = s2.length)
    (h1 : ∀ x ∈ s1, x < K) (h2 : ∀ x ∈ s2, x < K) :
    matTotal (divMatrix K s1 s2) =
      ((List.range s1.length).countP fun p =>
        decide (0 ≤ s1.getD p (-9) ∧ 0 ≤ s2.getD p (-9))) := by
  have hl : ∀ q ∈ pairedValid s1 s2, (0 ≤ q.1 ∧ q.1 < K) ∧ (0 ≤ q.2 ∧ q.2 < K) := by
    intro q hq
    rw [pairedValid, List.mem_filter] at hq
    obtain ⟨hmem, hcond⟩ := hq
    have hmm := List.of_mem_zip (a := q.1) (b := q.2) (by simpa using hmem)
    have hmin : 0 ≤ min q.1 q.2 := by simpa using hcond
    exact ⟨⟨le_trans hmin (min_le_left _ _), h1 q.1 hmm.1⟩,
           ⟨le_trans hmin (min_le_right _ _), h2 q.2 hmm.2⟩⟩
  calc matTotal (divMatrix K s1 s2)
      = ∑ a : Fin K, ∑ b : Fin K, (pairedValid s1 s2).count (((a : ℕ) : ℤ), ((b : ℕ) : ℤ)) := by
        unfold matTotal divMatrix
        exact Finset.sum_congr rfl fun a _ => Finset.sum_congr rfl fun b _ =>
          fill_diversity_matrix_count s1 s2 _
    _ = (pairedValid s1 s2).length := sum_count_pairs _ hl
    _ = _ := pairedValid_length s1 s2 hlen

/-- Witness for `divMatrix_total_eq_valid_positions` on two concrete
sequences with one jointly-valid position. -/
theorem divMatrix_total_witness :
    matTotal (divMatrix 2 [0, -9, 1] [1, 0, -9]) =
      ((List.range 3).countP fun p =>
        decide (0 ≤ ([0, -9, 1] : List ℤ).getD p (-9) ∧
                0 ≤ ([1, 0, -9] : List ℤ).getD p (-9))) :=
  divMatrix_total_eq_valid_positions 2 [0, -9, 1] [1, 0, -9] (by decide)
    (by decide) (by decide)

/-- A name-pair keyed map holds the same value under both orderings. -/
def SymmMap {β : Type} (m : String × String → β) : Prop :=
  ∀ x y : String, m (x, y) = m (y, x)

theorem list_foldl_preserve {σ τ : Type} {P : σ → Prop} {step : σ → τ → σ} :
    ∀ (l : List τ) (s : σ), (∀ s x, x ∈ l → P s → P (step s x)) → P s → P (l.foldl step s) := by
  intro l
  induction l with
  | nil => intro s _ hs; exact hs
  | cons a l ih =>
    intro s hstep hs
    exact ih _ (fun s x hx => hstep s x (List.mem_cons_of_mem a hx))
      (hstep s a (List.mem_cons_self a l) hs)

theorem symm_insert2 {α : Type} (n1 n2 : String) (v : α)
    (m : String × String → Option α) (h : SymmMap m) :
    SymmMap (insert2 n1 n2 v m) := by
  intro x y
  unfold insert2
  by_cases hx2 : x = n2 <;> by_cases hy1 : y = n1 <;> by_cases hx1 : x = n1 <;>
    by_cases hy2 : y = n2 <;> simp_all [Prod.ext_iff] <;> exact h _ _

theorem symm_processPair {α : Type} (K : ℕ) (f : Matrix (Fin K) (Fin K) ℕ → α)
    (seqs : List (List ℤ)) (names : List String) (i j : ℕ) (st : RunState α)
    (h : SymmMap st.dists) :
    SymmMap (processPair K f seqs names i st j).dists := by
  simp only [processPair]
  split_ifs with h1 h2
  · exact h
  · exact h
  · exact symm_insert2 _ _ _ _ h

theorem symm_runLoop {α : Type} (K : ℕ) (f : Matrix (Fin K) (Fin K) ℕ → α)
    (seqs : List (List ℤ)) (names : List String) :
    SymmMap (runLoop K f seqs names).dists := by
  unfold runLoop
  refine @list_foldl_preserve (RunState α) ℕ (fun st => SymmMap st.dists)
    (processRow K f seqs names) (List.range (names.length - 1)) _
    (fun st i _ hst => ?_) ?_
  · unfold processRow
    split_ifs with hc
    · exact hst
    · exact @list_foldl_preserve (RunState α) ℕ (fun st => SymmMap st.dists)
        (processPair K f seqs names i) _ _
        (fun s x _ hs => symm_processPair K f seqs names i x s hs) hst
  · intro x y
    rfl

theorem symm_runClean {α : Type} (st : RunState α) (names : List String)
    (h : SymmMap st.dists) : SymmMap (runClean st names) := by
  intro x y
  unfold runClean
  split_ifs with h1
  · exact h x y
  · simp only []
    by_cases hc : x ∈ dupeNames st names ∨ y ∈ dupeNames st names
    · have hc2 : y ∈ dupeNames st names ∨ x ∈ dupeNames st names := hc.symm
      simp [hc, hc2]
    · have hc2 : ¬(y ∈ dupeNames st names ∨ x ∈ dupeNames st names) :=
        fun hh => hc hh.symm
      simp [hc, hc2, h x y]

theorem symm_statView {α : Type} (g : α → Option ℝ)
    (m : String × String → Option α) (h : SymmMap m) : SymmMap (statView g m) := by
  intro x y
  unfold statView
  rw [h x y]

theorem symm_expandPass (names : List String)
    (p : String × String → Option (Option ℝ)) (ar : String × String)
    (h : SymmMap p) : SymmMap (expandPass names p ar) := by
  unfold expandPass
  refine list_foldl_preserve _ _ (fun p name _ hp => ?_) h
  by_cases hn : name = ar.1
  · simpa [hn] using hp
  · intro x y
    simp only [if_neg hn]
    by_cases hxy : (x, y) = (ar.1, name) ∨ (x, y) = (name, ar.1)
    · have hyx : (y, x) = (ar.1, name) ∨ (y, x) = (name, ar.1) := by
        rcases hxy with hh | hh
        · right
          rw [Prod.ext_iff] at hh ⊢
          exact ⟨hh.2, hh.1⟩
        · left
          rw [Prod.ext_iff] at hh ⊢
          exact ⟨hh.2, hh.1⟩
      simp only [Prod.mk.injEq] at hxy hyx
      simp [hxy, hyx]
    · have hyx : ¬((y, x) = (ar.1, name) ∨ (y, x) = (name, ar.1)) := by
        intro hh
        apply hxy
        rcases hh with hh | hh
        · right
          rw [Prod.ext_iff] at hh ⊢
          exact ⟨hh.2, hh.1⟩
        · left
          rw [Prod.ext_iff] at hh ⊢
          exact ⟨hh.2, hh.1⟩
      simp only [Prod.mk.injEq] at hxy hyx
      simp [hxy, hyx, hp x y]

theorem symm_expandAll (names : List String) (reds : List (String × String))
    (p : String × String → Option (Option ℝ)) (h : SymmMap p) :
    SymmMap (expandAll names reds p) := by
  unfold expandAll
  exact list_foldl_preserve _ _ (fun p ar _ hp => symm_expandPass names p ar hp) h

/-- C3: every run's sparse store records each result under both orderings
of the name pair (after the duplicate clean-up), and the expansion of any
per-statistic view across duplicates is again symmetric:
the entry at `(x, y)` always equals the entry at `(y, x)`. -/
theorem run_matrices_symmetric {α : Type} (K : ℕ)
    (f : Matrix (Fin K) (Fin K) ℕ → α) (g : α → Option ℝ)
    (seqs : List (List ℤ)) (names : List String) (x y : String) :
    runClean (runLoop K f seqs names) names (x, y) =
      runClean (runLoop K f seqs names) names (y, x) ∧
    expandedView K f g seqs names (x, y) = expandedView K f g seqs names (y, x) := by
  have h1 : SymmMap (runClean (runLoop K f seqs names) names) :=
    symm_runClean _ _ (symm_runLoop K f seqs names)
  refine ⟨h1 x y, ?_⟩
  unfold expandedView
  exact symm_expandAll _ _ _ (symm_statView g _ h1) x y

/-- C8 (code bug): on a run over three pairwise-distinct sequences the
progress fractions reported are `0/4, 1/4, 2/4`: the code's
`to_do = (len(names) * len(names) - 1) / 2` is `(N² - 1)/2 = 4`, not the
total number of comparisons `N(N-1)/2 = 3` that the fraction is specified
against. -/
theorem progress_denominator_code_bug :
    (runLoop 2 (fun _ => (0 : ℕ)) [[0, 1], [1, 0], [0, 0]] ["a", "b", "c"]).reports =
      [0, 1 / 4, 1 / 2] ∧
    (runLoop 2 (fun _ => (0 : ℕ)) [[0, 1], [1, 0], [0, 0]] ["a", "b", "c"]).reports ≠
      ((List.range 3).map fun d => (d : ℚ) / ((3 * (3 - 1) : ℚ) / 2)) := by
  have hexact : (runLoop 2 (fun _ => (0 : ℕ)) [[0, 1], [1, 0], [0, 0]]
      ["a", "b", "c"]).reports =
      [((0 : ℕ) : ℚ) /
         ((((["a", "b", "c"].length : ℕ) : ℚ) * ((["a", "b", "c"].length : ℕ) : ℚ) - 1) / 2),
       ((1 : ℕ) : ℚ) /
         ((((["a", "b", "c"].length : ℕ) : ℚ) * ((["a", "b", "c"].length : ℕ) : ℚ) - 1) / 2),
       ((2 : ℕ) : ℚ) /
         ((((["a", "b", "c"].length : ℕ) : ℚ) * ((["a", "b", "c"].length : ℕ) : ℚ) - 1) / 2)] :=
    rfl
  have hrep : (runLoop 2 (fun _ => (0 : ℕ)) [[0, 1], [1, 0], [0, 0]]
      ["a", "b", "c"]).reports = [0, 1 / 4, 1 / 2] := by
    rw [hexact]
    norm_num
  refine ⟨hrep, ?_⟩
  rw [hrep]
  intro heq
  have h2 := congrArg (fun l => l.getD 1 0) heq
  simp only [List.range_succ, List.range_zero, List.nil_append, List.cons_append,
    List.map_cons, List.map_nil, List.getD_cons_succ, List.getD_cons_zero] at h2
  norm_num at h2

/-- C7 (code bug): after a completed hamming run the sparse store holds a
pair whose variance is Python `None` (hamming never computes a variance),
and the `stderr` view applies `numpy.sqrt` to every stored variance, so it
raises a `TypeError` on that pair instead of propagating the invalid value
(the `variances` view, which does not take a square root, does not raise). -/
theorem stderr_raises_code_bug :
    ∃ s, runClean (runLoop 2 hammingStats [[0], [1]] ["s1", "s2"]) ["s1", "s2"]
        ("s1", "s2") = some s ∧
      s.variance = none ∧ np_sqrt s.variance = Except.error () := by
  refine ⟨hammingStats (divMatrix 2 [0] [1]), rfl, ?_, ?_⟩
  · have h : matTotal (divMatrix 2 [0] [1]) = 1 := by decide
    simp [hammingStats, h]
  · have h : matTotal (divMatrix 2 [0] [1]) = 1 := by decide
    simp [hammingStats, h, np_sqrt]

theorem processPair_duped_append {α : Type} (K : ℕ) (f : Matrix (Fin K) (Fin K) ℕ → α)
    (seqs : List (List ℤ)) (names : List String) (i j : ℕ) (st : RunState α) :
    ∃ t, (processPair K f seqs names i st j).duped = st.duped ++ t := by
  simp only [processPair]
  split_ifs with h1 h2
  · exact ⟨[], by simp⟩
  · exact ⟨[(i, j)], rfl⟩
  · exact ⟨[], by simp⟩

theorem dupes_mem_processPair {α : Type} (K : ℕ) (f : Matrix (Fin K) (Fin K) ℕ → α)
    (seqs : List (List ℤ)) (names : List String) (i j : ℕ) (st : RunState α)
    (d : ℕ) (hd : d ∈ st.dupes) : d ∈ (processPair K f seqs names i st j).dupes := by
  obtain ⟨t, ht⟩ := processPair_duped_append K f seqs names i j st
  unfold RunState.dupes at *
  rw [ht, List.map_append]
  exact List.mem_append_left _ hd

theorem dupes_mem_processRow {α : Type} (K : ℕ) (f : Matrix (Fin K) (Fin K) ℕ → α)
    (seqs : List (List ℤ)) (names : List String) (i : ℕ) (st : RunState α)
    (d : ℕ) (hd : d ∈ st.dupes) : d ∈ (processRow K f seqs names st i).dupes := by
  unfold processRow
  split_ifs with h1
  · exact hd
  · exact @list_foldl_preserve (RunState α) ℕ (fun s => d ∈ s.dupes)
      (processPair K f seqs names i) _ st
      (fun s x _ hs => dupes_mem_processPair K f seqs names i x s d hs) hd

theorem dupes_mem_foldl_pairs {α : Type} (K : ℕ) (f : Matrix (Fin K) (Fin K) ℕ → α)
    (seqs : List (List ℤ)) (names : List String) (i : ℕ) (l : List ℕ)
    (st : RunState α) (d : ℕ) (hd : d ∈ st.dupes) :
    d ∈ (l.foldl (processPair K f seqs names i) st).dupes :=
  @list_foldl_preserve (RunState α) ℕ (fun s => d ∈ s.dupes)
    (processPair K f seqs names i) l st
    (fun s x _ hs => dupes_mem_processPair K f seqs names i x s d hs) hd

theorem dupes_mem_foldl_rows {α : Type} (K : ℕ) (f : Matrix (Fin K) (Fin K) ℕ → α)
    (seqs : List (List ℤ)) (names : List String) (l : List ℕ)
    (st : RunState α) (d : ℕ) (hd : d ∈ st.dupes) :
    d ∈ (l.foldl (processRow K f seqs names) st).dupes :=
  @list_foldl_preserve (RunState α) ℕ (fun s => d ∈ s.dupes)
    (processRow K f seqs names) l st
    (fun s x _ hs => dupes_mem_processRow K f seqs names x s d hs) hd

/-- The structural invariant of the run's duplicate record: each entry pairs
a smaller representative with a strictly larger, in-range duplicate index,
duplicates are recorded once, representatives are below the bound and are
never themselves duplicates. -/
def DupedInv {α : Type} (n bound : ℕ) (st : RunState α) : Prop :=
  st.dupes.Nodup ∧
  ∀ rd ∈ st.duped, rd.1 < rd.2 ∧ rd.2 < n ∧ rd.1 < bound ∧ rd.1 ∉ st.dupes

theorem DupedInv.mono_bound {α : Type} {n b b' : ℕ} {st : RunState α}
    (h : DupedInv n b st) (hb : b ≤ b') : DupedInv n b' st :=
  ⟨h.1, fun rd hrd => ⟨(h.2 rd hrd).1, (h.2 rd hrd).2.1,
    lt_of_lt_of_le (h.2 rd hrd).2.2.1 hb, (h.2 rd hrd).2.2.2⟩⟩

theorem processPair_inv {α : Type} (K : ℕ) (f : Matrix (Fin K) (Fin K) ℕ → α)
    (seqs : List (List ℤ)) (names : List String) (i j : ℕ) (st : RunState α)
    (hij : i < j) (hjn : j < names.length)
    (hi : i ∉ st.dupes) (hinv : DupedInv names.length (i + 1) st) :
    i ∉ (processPair K f seqs names i st j).dupes ∧
    DupedInv names.length (i + 1) (processPair K f seqs names i st j) := by
  simp only [processPair]
  split_ifs with h1 h2
  · exact ⟨hi, hinv⟩
  · constructor
    · unfold RunState.dupes
      simp only [List.map_append, List.map_cons, List.map_nil]
      intro hmem
      rcases List.mem_append.mp hmem with hmem | hmem
      · exact hi hmem
      · simp only [List.mem_singleton] at hmem
        omega
    · constructor
      · unfold RunState.dupes
        simp only [List.map_append, List.map_cons, List.map_nil]
        rw [List.nodup_append]
        refine ⟨hinv.1, List.nodup_singleton j, ?_⟩
        intro a ha hb
        simp only [List.mem_singleton] at hb
        subst hb
        exact h1 ha
      · intro rd hrd
        rcases List.mem_append.mp hrd with hrd | hrd
        · have hold := hinv.2 rd hrd
          refine ⟨hold.1, hold.2.1, hold.2.2.1, ?_⟩
          unfold RunState.dupes
          simp only [List.map_append, List.map_cons, List.map_nil]
          intro hmem
          rcases List.mem_append.mp hmem with hmem | hmem
          · exact hold.2.2.2 hmem
          · simp only [List.mem_singleton] at hmem
            have : rd.1 < i + 1 := hold.2.2.1
            omega
        · simp only [List.mem_singleton] at hrd
          subst hrd
          refine ⟨hij, hjn, Nat.lt_succ_self i, ?_⟩
          unfold RunState.dupes
          simp only [List.map_append, List.map_cons, List.map_nil]
          intro hmem
          rcases List.mem_append.mp hmem with hmem | hmem
          · exact hi hmem
          · simp only [List.mem_singleton] at hmem
            omega
  · exact ⟨hi, hinv⟩

theorem processRow_inv {α : Type} (K : ℕ) (f : Matrix (Fin K) (Fin K) ℕ → α)
    (seqs : List (List ℤ)) (names : List String) (i : ℕ) (st : RunState α)
    (hinv : DupedInv names.length i st) :
    DupedInv names.length (i + 1) (processRow K f seqs names st i) := by
  unfold processRow
  split_ifs with h1
  · exact hinv.mono_bound (Nat.le_succ i)
  · by_cases hn : i + 1 ≤ names.length
    · have hfold : ∀ (l : List ℕ) (s : RunState α),
          (∀ j ∈ l, i < j ∧ j < names.length) →
          i ∉ s.dupes → DupedInv names.length (i + 1) s →
          i ∉ (l.foldl (processPair K f seqs names i) s).dupes ∧
            DupedInv names.length (i + 1) (l.foldl (processPair K f seqs names i) s) := by
        intro l
        induction l with
        | nil => intro s _ hs hinvs; exact ⟨hs, hinvs⟩
        | cons a l ih =>
          intro s hl hs hinvs
          have ha := hl a (List.mem_cons_self a l)
          have hstep := processPair_inv K f seqs names i a s ha.1 ha.2 hs hinvs
          exact ih _ (fun j hj => hl j (List.mem_cons_of_mem a hj)) hstep.1 hstep.2
      refine (hfold _ st ?_ h1 (hinv.mono_bound (Nat.le_succ i))).2
      intro j hj
      rw [List.mem_range'_1] at hj
      omega
    · have : names.length - (i + 1) = 0 := by omega
      rw [this]
      exact hinv.mono_bound (Nat.le_succ i)

theorem rows_inv {α : Type} (K : ℕ) (f : Matrix (Fin K) (Fin K) ℕ → α)
    (seqs : List (List ℤ)) (names : List String) :
    ∀ (b a : ℕ) (st : RunState α), DupedInv names.length a st →
      DupedInv names.length (a + b)
        ((List.range' a b).foldl (processRow K f seqs names) st) := by
  intro b
  induction b with
  | zero => intro a st h; exact h
  | succ b ih =>
    intro a st h
    rw [List.range'_succ]
    have hstep := processRow_inv K f seqs names a st h
    have := ih (a + 1) _ hstep
    rw [List.foldl_cons]
    exact this.mono_bound (by omega)

theorem runLoop_inv {α : Type} (K : ℕ) (f : Matrix (Fin K) (Fin K) ℕ → α)
    (seqs : List (List ℤ)) (names : List String) :
    DupedInv names.length names.length (runLoop K f seqs names) := by
  unfold runLoop
  rw [List.range_eq_range']
  have hinit : DupedInv names.length 0 (⟨[], fun _ => none, []⟩ : RunState α) := by
    constructor
    · exact List.nodup_nil
    · intro rd hrd
      simp at hrd
  have := rows_inv K f seqs names (names.length - 1) 0 _ hinit
  simp only [Nat.zero_add] at this
  exact this.mono_bound (by omega)

theorem names_getD_inj (names : List String) (hnd : names.Nodup) {i j : ℕ}
    (hi : i < names.length) (hj : j < names.length)
    (h : names.getD i "" = names.getD j "") : i = j := by
  rw [List.getD_eq_getElem _ _ hi, List.getD_eq_getElem _ _ hj] at h
  exact (List.Nodup.getElem_inj_iff hnd).mp h

/-- The result of the pair `(i, j)` is present in the store, under both name
orderings, with the value the estimator computed on that pair's diversity
matrix. -/
def Pkey {α : Type} (K : ℕ) (f : Matrix (Fin K) (Fin K) ℕ → α)
    (seqs : List (List ℤ)) (names : List String) (i j : ℕ)
    (st : RunState α) : Prop :=
  st.dists (names.getD i "", names.getD j "") =
    some (f (divMatrix K (seqs.getD i []) (seqs.getD j []))) ∧
  st.dists (names.getD j "", names.getD i "") =
    some (f (divMatrix K (seqs.getD i []) (seqs.getD j [])))

theorem Pkey_preserved_pair {α : Type} (K : ℕ) (f : Matrix (Fin K) (Fin K) ℕ → α)
    (seqs : List (List ℤ)) (names : List String) (hnd : names.Nodup)
    {i j i' j' : ℕ} (st : RunState α)
    (hij : i < j) (hjn : j < names.length)
    (hij' : i' < j') (hjn' : j' < names.length)
    (h : Pkey K f seqs names i j st) :
    Pkey K f seqs names i j (processPair K f seqs names i' st j') := by
  simp only [processPair]
  split_ifs with h1 h2
  · exact h
  · exact h
  · have hin : i < names.length := lt_trans hij hjn
    have hin' : i' < names.length := lt_trans hij' hjn'
    constructor
    · show insert2 (names.getD i' "") (names.getD j' "") _ st.dists _ = _
      unfold insert2
      split_ifs with c1 c2
      · rw [Prod.ext_iff] at c1
        have e1 : i = j' := names_getD_inj names hnd hin hjn' c1.1
        have e2 : j = i' := names_getD_inj names hnd hjn hin' c1.2
        omega
      · rw [Prod.ext_iff] at c2
        have e1 : i = i' := names_getD_inj names hnd hin hin' c2.1
        have e2 : j = j' := names_getD_inj names hnd hjn hjn' c2.2
        subst e1
        subst e2
        rfl
      · exact h.1
    · show insert2 (names.getD i' "") (names.getD j' "") _ st.dists _ = _
      unfold insert2
      split_ifs with c1 c2
      · rw [Prod.ext_iff] at c1
        have e1 : j = j' := names_getD_inj names hnd hjn hjn' c1.1
        have e2 : i = i' := names_getD_inj names hnd hin hin' c1.2
        subst e1
        subst e2
        rfl
      · rw [Prod.ext_iff] at c2
        have e1 : j = i' := names_getD_inj names hnd hjn hin' c2.1
        have e2 : i = j' := names_getD_inj names hnd hin hjn' c2.2
        omega
      · exact h.2

theorem Pkey_preserved_row {α : Type} (K : ℕ) (f : Matrix (Fin K) (Fin K) ℕ → α)
    (seqs : List (List ℤ)) (names : List String) (hnd : names.Nodup)
    {i j i' : ℕ} (st : RunState α)
    (hij : i < j) (hjn : j < names.length)
    (h : Pkey K f seqs names i j st) :
    Pkey K f seqs names i j (processRow K f seqs names st i') := by
  unfold processRow
  split_ifs with h1
  · exact h
  · refine @list_foldl_preserve (RunState α) ℕ (Pkey K f seqs names i j)
      (processPair K f seqs names i') _ st (fun s x hx hs => ?_) h
    rw [List.mem_range'_1] at hx
    exact Pkey_preserved_pair K f seqs names hnd s hij hjn (by omega) (by omega) hs

theorem Pkey_established {α : Type} (K : ℕ) (f : Matrix (Fin K) (Fin K) ℕ → α)
    (seqs : List (List ℤ)) (names : List String) (hnd : names.Nodup)
    {i j : ℕ} (st : RunState α)
    (hij : i < j) (hjn : j < names.length)
    (hdj : j ∉ (processPair K f seqs names i st j).dupes) :
    Pkey K f seqs names i j (processPair K f seqs names i st j) := by
  have hne : names.getD i "" ≠ names.getD j "" := by
    intro hh
    have := names_getD_inj names hnd (lt_trans hij hjn) hjn hh
    omega
  simp only [processPair] at hdj ⊢
  split_ifs with h1 h2
  · rw [if_pos h1] at hdj
    exact absurd h1 hdj
  · exfalso
    apply hdj
    simp only [if_neg h1, if_pos h2]
    unfold RunState.dupes
    simp only [List.map_append, List.map_cons, List.map_nil]
    exact List.mem_append_right _ (List.mem_singleton.mpr rfl)
  · constructor
    · show insert2 (names.getD i "") (names.getD j "") _ st.dists _ = _
      unfold insert2
      rw [if_neg, if_pos rfl]
      intro hc
      rw [Prod.ext_iff] at hc
      exact hne hc.1
    · show insert2 (names.getD i "") (names.getD j "") _ st.dists _ = _
      unfold insert2
      rw [if_pos rfl]

theorem runLoop_presence {α : Type} (K : ℕ) (f : Matrix (Fin K) (Fin K) ℕ → α)
    (seqs : List (List ℤ)) (names : List String) (hnd : names.Nodup)
    {i j : ℕ} (hij : i < j) (hjn : j < names.length)
    (hdi : i ∉ (runLoop K f seqs names).dupes)
    (hdj : j ∉ (runLoop K f seqs names).dupes) :
    Pkey K f seqs names i j (runLoop K f seqs names) := by
  have hiray : i ∈ List.range (names.length - 1) := List.mem_range.mpr (by omega)
  obtain ⟨l₁, l₂, hsplit⟩ := List.append_of_mem hiray
  have hl₂ : ∀ x ∈ l₂, x < names.length - 1 := by
    intro x hx
    have hxx : x ∈ List.range (names.length - 1) := by
      rw [hsplit]
      exact List.mem_append_right _ (List.mem_cons_of_mem _ hx)
    exact List.mem_range.mp hxx
  unfold runLoop at hdi hdj ⊢
  rw [hsplit, List.foldl_append, List.foldl_cons] at hdi hdj ⊢
  set st₁ := l₁.foldl (processRow K f seqs names)
    (⟨[], fun _ => none, []⟩ : RunState α) with hst₁
  have hi₁ : i ∉ st₁.dupes := by
    intro hmem
    exact hdi (dupes_mem_foldl_rows K f seqs names l₂ _ i
      (dupes_mem_processRow K f seqs names i st₁ i hmem))
  have hrow : processRow K f seqs names st₁ i =
      (List.range' (i + 1) (names.length - (i + 1))).foldl
        (processPair K f seqs names i) st₁ := by
    unfold processRow
    rw [if_neg hi₁]
  rw [hrow] at hdi hdj ⊢
  have hjs : j ∈ List.range' (i + 1) (names.length - (i + 1)) := by
    rw [List.mem_range'_1]
    omega
  obtain ⟨m₁, m₂, hsplit2⟩ := List.append_of_mem hjs
  have hm₂ : ∀ x ∈ m₂, i < x ∧ x < names.length := by
    intro x hx
    have hxx : x ∈ List.range' (i + 1) (names.length - (i + 1)) := by
      rw [hsplit2]
      exact List.mem_append_right _ (List.mem_cons_of_mem _ hx)
    rw [List.mem_range'_1] at hxx
    omega
  rw [hsplit2, List.foldl_append, List.foldl_cons] at hdi hdj ⊢
  set stA := m₁.foldl (processPair K f seqs names i) st₁ with hstA
  set stB := processPair K f seqs names i stA j with hstB
  have hdjB : j ∉ stB.dupes := by
    intro hmem
    exact hdj (dupes_mem_foldl_rows K f seqs names l₂ _ j
      (dupes_mem_foldl_pairs K f seqs names i m₂ _ j hmem))
  have hPB : Pkey K f seqs names i j stB :=
    Pkey_established K f seqs names hnd stA hij hjn hdjB
  have hP₂ : Pkey K f seqs names i j (m₂.foldl (processPair K f seqs names i) stB) :=
    @list_foldl_preserve (RunState α) ℕ (Pkey K f seqs names i j)
      (processPair K f seqs names i) m₂ stB
      (fun s x hx hs => Pkey_preserved_pair K f seqs names hnd s hij hjn
        (hm₂ x hx).1 (hm₂ x hx).2 hs) hPB
  exact @list_foldl_preserve (RunState α) ℕ (Pkey K f seqs names i j)
    (processRow K f seqs names) l₂ _
    (fun s x _ hs => Pkey_preserved_row K f seqs names hnd s hij hjn hs) hP₂

theorem expandPass_eq (ar : String × String) (hne : ar.2 ≠ ar.1) :
    ∀ (ns : List String) (p : String × String → Option (Option ℝ)) (x y : String),
      expandPass ns p ar (x, y) =
        if x = ar.1 ∧ y ≠ ar.1 ∧ y ∈ ns then
          some (if y = ar.2 then some 0 else (p (ar.2, y)).join)
        else if y = ar.1 ∧ x ≠ ar.1 ∧ x ∈ ns then
          some (if x = ar.2 then some 0 else (p (ar.2, x)).join)
        else p (x, y) := by
  intro ns
  induction ns with
  | nil =>
    intro p x y
    simp [expandPass]
  | cons C ns ih =>
    intro p x y
    have hstep : expandPass (C :: ns) p ar = expandPass ns
        (if C = ar.1 then p
         else fun q =>
           if q = (ar.1, C) ∨ q = (C, ar.1) then
             some (if C = ar.2 then some 0 else (p (ar.2, C)).join)
           else p q) ar := by
      unfold expandPass
      rw [List.foldl_cons]
    rw [hstep]
    by_cases hC : C = ar.1
    · rw [if_pos hC]
      rw [ih p x y]
      by_cases hx : x = ar.1 <;> by_cases hy : y = ar.1 <;>
        by_cases hyn : y ∈ ns <;> by_cases hxn : x ∈ ns <;>
        simp_all [List.mem_cons]
    · rw [if_neg hC]
      rw [ih _ x y]
      have hread : ∀ z : String, z ≠ ar.1 →
          (if ((ar.2, z) : String × String) = (ar.1, C) ∨
              ((ar.2, z) : String × String) = (C, ar.1) then
             some (if C = ar.2 then some 0 else (p (ar.2, C)).join)
           else p (ar.2, z)) = p (ar.2, z) := by
        intro z hz
        rw [if_neg]
        rintro (hh | hh) <;> rw [Prod.ext_iff] at hh
        · exact hne hh.1
        · exact hz hh.2
      by_cases hx : x = ar.1
      · by_cases hy : y = ar.1
        · have c1 : ¬(x = ar.1 ∧ y ≠ ar.1 ∧ y ∈ ns) := fun h => h.2.1 hy
          have c1' : ¬(x = ar.1 ∧ y ≠ ar.1 ∧ y ∈ C :: ns) := fun h => h.2.1 hy
          have c2 : ¬(y = ar.1 ∧ x ≠ ar.1 ∧ x ∈ ns) := fun h => h.2.1 hx
          have c2' : ¬(y = ar.1 ∧ x ≠ ar.1 ∧ x ∈ C :: ns) := fun h => h.2.1 hx
          have c3 : ¬(((x, y) : String × String) = (ar.1, C) ∨
              ((x, y) : String × String) = (C, ar.1)) := by
            rintro (hh | hh) <;> rw [Prod.ext_iff] at hh
            · exact hC (hy.symm.trans hh.2).symm
            · exact hC (hx.symm.trans hh.1).symm
          simp only [if_neg c1, if_neg c1', if_neg c2, if_neg c2', if_neg c3]
        · have c2 : ¬(y = ar.1 ∧ x ≠ ar.1 ∧ x ∈ ns) := fun h => hy h.1
          have c2' : ¬(y = ar.1 ∧ x ≠ ar.1 ∧ x ∈ C :: ns) := fun h => hy h.1
          by_cases hyn : y ∈ ns
          · have c1 : x = ar.1 ∧ y ≠ ar.1 ∧ y ∈ ns := ⟨hx, hy, hyn⟩
            have c1' : x = ar.1 ∧ y ≠ ar.1 ∧ y ∈ C :: ns :=
              ⟨hx, hy, List.mem_cons_of_mem C hyn⟩
            simp only [if_pos c1, if_pos c1', hread y hy]
          · have c1 : ¬(x = ar.1 ∧ y ≠ ar.1 ∧ y ∈ ns) := fun h => hyn h.2.2
            by_cases hyC : y = C
            · have c1' : x = ar.1 ∧ y ≠ ar.1 ∧ y ∈ C :: ns :=
                ⟨hx, hy, by rw [hyC]; exact List.mem_cons_self C ns⟩
              have c3 : ((x, y) : String × String) = (ar.1, C) ∨
                  ((x, y) : String × String) = (C, ar.1) := by
                left
                rw [Prod.ext_iff]
                exact ⟨hx, hyC⟩
              simp only [if_neg c1, if_neg c2, if_pos c1', if_pos c3]
              rw [hyC]
            · have c1' : ¬(x = ar.1 ∧ y ≠ ar.1 ∧ y ∈ C :: ns) :=
                fun h => (List.mem_cons.mp h.2.2).elim hyC hyn
              have c3 : ¬(((x, y) : String × String) = (ar.1, C) ∨
                  ((x, y) : String × String) = (C, ar.1)) := by
                rintro (hh | hh) <;> rw [Prod.ext_iff] at hh
                · exact hyC hh.2
                · exact hC (hx.symm.trans hh.1).symm
              simp only [if_neg c1, if_neg c1', if_neg c2, if_neg c2', if_neg c3]
      · have c1 : ¬(x = ar.1 ∧ y ≠ ar.1 ∧ y ∈ ns) := fun h => hx h.1
        have c1' : ¬(x = ar.1 ∧ y ≠ ar.1 ∧ y ∈ C :: ns) := fun h => hx h.1
        by_cases hy : y = ar.1
        · by_cases hxn : x ∈ ns
          · have c2 : y = ar.1 ∧ x ≠ ar.1 ∧ x ∈ ns := ⟨hy, hx, hxn⟩
            have c2' : y = ar.1 ∧ x ≠ ar.1 ∧ x ∈ C :: ns :=
              ⟨hy, hx, List.mem_cons_of_mem C hxn⟩
            simp only [if_neg c1, if_neg c1', if_pos c2, if_pos c2', hread x hx]
          · have c2 : ¬(y = ar.1 ∧ x ≠ ar.1 ∧ x ∈ ns) := fun h => hxn h.2.2
            by_cases hxC : x = C
            · have c2' : y = ar.1 ∧ x ≠ ar.1 ∧ x ∈ C :: ns :=
                ⟨hy, hx, by rw [hxC]; exact List.mem_cons_self C ns⟩
              have c3 : ((x, y) : String × String) = (ar.1, C) ∨
                  ((x, y) : String × String) = (C, ar.1) := by
                right
                rw [Prod.ext_iff]
                exact ⟨hxC, hy⟩
              simp only [if_neg c1, if_neg c1', if_neg c2, if_pos c2', if_pos c3]
              rw [hxC]
            · have c2' : ¬(y = ar.1 ∧ x ≠ ar.1 ∧ x ∈ C :: ns) :=
                fun h => (List.mem_cons.mp h.2.2).elim hxC hxn
              have c3 : ¬(((x, y) : String × String) = (ar.1, C) ∨
                  ((x, y) : String × String) = (C, ar.1)) := by
                rintro (hh | hh) <;> rw [Prod.ext_iff] at hh
                · exact hx hh.1
                · exact hxC hh.1
              simp only [if_neg c1, if_neg c1', if_neg c2, if_neg c2', if_neg c3]
        · have c2 : ¬(y = ar.1 ∧ x ≠ ar.1 ∧ x ∈ ns) := fun h => hy h.1
          have c2' : ¬(y = ar.1 ∧ x ≠ ar.1 ∧ x ∈ C :: ns) := fun h => hy h.1
          have c3 : ¬(((x, y) : String × String) = (ar.1, C) ∨
              ((x, y) : String × String) = (C, ar.1)) := by
            rintro (hh | hh) <;> rw [Prod.ext_iff] at hh
            · exact hx hh.1
            · exact hy hh.2
          simp only [if_neg c1, if_neg c1', if_neg c2, if_neg c2', if_neg c3]

/-- The representative recorded for a duplicate name by (a prefix of) the
`redundants` association (entries are `(duplicate, representative)`). -/
def repIn (P : List (String × String)) (x : String) : Option String :=
  (P.find? fun dr => dr.1 == x).map Prod.snd

theorem repIn_of_not_mem_firsts (P : List (String × String)) (z : String)
    (hz : z ∉ P.map Prod.fst) : repIn P z = none := by
  unfold repIn
  rw [List.find?_eq_none.mpr]
  · rfl
  · intro dr hdr
    simp only [beq_iff_eq]
    intro hh
    exact hz (List.mem_map.mpr ⟨dr, hdr, hh⟩)

theorem repIn_append_of_ne (P : List (String × String)) (e : String × String)
    (z : String) (hz : z ≠ e.1) : repIn (P ++ [e]) z = repIn P z := by
  unfold repIn
  rw [List.find?_append]
  cases hfp : P.find? fun dr => dr.1 == z with
  | some a => simp
  | none =>
    have : List.find? (fun dr => dr.1 == z) [e] = none := by
      rw [List.find?_eq_none.mpr]
      intro dr hdr
      simp only [List.mem_singleton] at hdr
      subst hdr
      simp only [beq_iff_eq]
      exact fun hh => hz hh.symm
    rw [this]
    simp

theorem repIn_append_last (P : List (String × String)) (e : String × String)
    (hd : e.1 ∉ P.map Prod.fst) : repIn (P ++ [e]) e.1 = some e.2 := by
  unfold repIn
  rw [List.find?_append]
  rw [List.find?_eq_none.mpr]
  · simp [List.find?]
  · intro dr hdr
    simp only [beq_iff_eq]
    intro hh
    exact hd (List.mem_map.mpr ⟨dr, hdr, hh⟩)

theorem repIn_mem (P : List (String × String)) (z b : String)
    (h : repIn P z = some b) : ∃ dr ∈ P, dr.1 = z ∧ dr.2 = b := by
  unfold repIn at h
  cases hfp : P.find? fun dr => dr.1 == z with
  | none => rw [hfp] at h; exact absurd h (by simp)
  | some a =>
    rw [hfp] at h
    simp only [Option.map_some'] at h
    rw [Option.some_inj] at h
    have h1 := List.find?_some hfp
    have h2 := List.mem_of_find?_eq_some hfp
    simp only [beq_iff_eq] at h1
    exact ⟨a, h2, h1, h⟩

theorem repIn_isSome_of_mem_firsts (P : List (String × String)) (z : String)
    (hz : z ∈ P.map Prod.fst) : ∃ b, repIn P z = some b := by
  obtain ⟨dr, hdr, hfst⟩ := List.mem_map.mp hz
  unfold repIn
  cases hfp : P.find? fun dr => dr.1 == z with
  | none =>
    rw [List.find?_eq_none] at hfp
    exact absurd (by simpa [beq_iff_eq] using hfst : (dr.1 == z) = true) (by
      have := hfp dr hdr
      simpa using this)
  | some a => exact ⟨a.2, by simp⟩

theorem repIn_of_mem_nodup (R : List (String × String))
    (hnd : (R.map Prod.fst).Nodup) (d r : String) (h : (d, r) ∈ R) :
    repIn R d = some r := by
  induction R with
  | nil => simp at h
  | cons e R ih =>
    simp only [List.map_cons, List.nodup_cons] at hnd
    rcases List.mem_cons.mp h with hh | hh
    · subst hh
      unfold repIn
      rw [List.find?_cons_of_pos _ (by simp)]
      rfl
    · have hd : d ∈ R.map Prod.fst := List.mem_map.mpr ⟨(d, r), hh, rfl⟩
      have hne : e.1 ≠ d := fun hc => hnd.1 (hc ▸ hd)
      unfold repIn
      rw [List.find?_cons_of_neg _ (by simp [hne])]
      exact ih hnd.2 hh

/-- The value of the expanded store after the `_expand` passes for the
duplicates listed in `P` have run, expressed from the pre-expansion store
`m₀` and the full duplicate-name list `dupB`. -/
def expandExpected (m₀ : String × String → Option (Option ℝ))
    (dupB : List String) (P : List (String × String)) :
    String × String → Option (Option ℝ) := fun q =>
  if q.1 = q.2 then m₀ q
  else
    match repIn P q.1, repIn P q.2 with
    | some a, some b => some (if a = b then some 0 else (m₀ (a, b)).join)
    | some a, none =>
        if q.2 ∈ dupB then some none
        else some (if q.2 = a then some 0 else (m₀ (a, q.2)).join)
    | none, some b =>
        if q.1 ∈ dupB then some none
        else some (if q.1 = b then some 0 else (m₀ (b, q.1)).join)
    | none, none => m₀ q

theorem expandAll_expected (names : List String)
    (m₀ : String × String → Option (Option ℝ)) (R : List (String × String))
    (hsym : SymmMap m₀)
    (hfst : (R.map Prod.fst).Nodup)
    (hents : ∀ dr ∈ R, dr.1 ≠ dr.2 ∧ dr.2 ∉ R.map Prod.fst ∧
      dr.1 ∈ names ∧ dr.2 ∈ names)
    (habs : ∀ x y : String, (x ∈ R.map Prod.fst ∨ y ∈ R.map Prod.fst) →
      m₀ (x, y) = none) :
    ∀ (P Q : List (String × String)), R = P ++ Q →
      ∀ x ∈ names, ∀ y ∈ names,
        (P.foldl (expandPass names) m₀) (x, y) =
          expandExpected m₀ (R.map Prod.fst) P (x, y) := by
  intro P
  induction P using List.reverseRecOn with
  | nil =>
    intro Q hQ x hx y hy
    simp only [List.foldl_nil]
    unfold expandExpected repIn
    simp only [List.find?_nil, Option.map_none']
    split_ifs <;> rfl
  | append_singleton P e ih =>
    intro Q hQ x hx y hy
    have heR : e ∈ R := by
      rw [hQ]
      exact List.mem_append_left _ (List.mem_append_right _ (List.mem_singleton.mpr rfl))
    have hePQ := hents e heR
    have hne : e.2 ≠ e.1 := fun h => hePQ.1 h.symm
    have hIH : ∀ u ∈ names, ∀ v ∈ names,
        (P.foldl (expandPass names) m₀) (u, v) =
          expandExpected m₀ (R.map Prod.fst) P (u, v) :=
      fun u hu v hv => ih ([e] ++ Q) (by rw [hQ, List.append_assoc]) u hu v hv
    have hfstP : e.1 ∉ P.map Prod.fst := by
      have hnd := hfst
      rw [hQ] at hnd
      simp only [List.map_append] at hnd
      have h1 := hnd.of_append_left
      rw [List.nodup_append] at h1
      intro hc
      exact h1.2.2 hc (by simp)
    have hsub : ∀ z, z ∈ P.map Prod.fst → z ∈ R.map Prod.fst := by
      intro z hz
      rw [hQ]
      simp only [List.map_append]
      exact List.mem_append_left _ (List.mem_append_left _ hz)
    have hdB : e.1 ∈ R.map Prod.fst := by
      rw [hQ]
      simp only [List.map_append]
      exact List.mem_append_left _ (List.mem_append_right _ (by simp))
    have hrB : e.2 ∉ R.map Prod.fst := hePQ.2.1
    have hrP : repIn P e.2 = none :=
      repIn_of_not_mem_firsts P e.2 (fun hc => hrB (hsub e.2 hc))
    rw [List.foldl_append, List.foldl_cons, List.foldl_nil]
    rw [expandPass_eq e hne names _ x y]
    by_cases hxy : x = y
    · have c1 : ¬(x = e.1 ∧ y ≠ e.1 ∧ y ∈ names) := by
        rw [hxy]
        exact fun h => h.2.1 h.1
      have c2 : ¬(y = e.1 ∧ x ≠ e.1 ∧ x ∈ names) := by
        rw [hxy]
        exact fun h => h.2.1 h.1
      rw [if_neg c1, if_neg c2, hIH x hx y hy]
      unfold expandExpected
      rw [if_pos hxy, if_pos hxy]
    · by_cases hx1 : x = e.1
      · have hyne : y ≠ e.1 := fun h => hxy (hx1.trans h.symm)
        rw [if_pos ⟨hx1, hyne, hy⟩]
        have hrep1 : repIn (P ++ [e]) x = some e.2 := by
          rw [hx1]
          exact repIn_append_last P e hfstP
        have hrep2 : repIn (P ++ [e]) y = repIn P y :=
          repIn_append_of_ne P e y hyne
        cases hry : repIn P y with
        | some b =>
          obtain ⟨dr, hdrP, hdr1, hdr2⟩ := repIn_mem P y b hry
          have hyB : y ∈ R.map Prod.fst :=
            hsub y (List.mem_map.mpr ⟨dr, hdrP, hdr1⟩)
          have hyr : y ≠ e.2 := fun h => hrB (h ▸ hyB)
          rw [if_neg hyr]
          have hE2 : expandExpected m₀ (R.map Prod.fst) P (e.2, y) =
              if e.2 ∈ R.map Prod.fst then some none
              else some (if e.2 = b then some 0 else (m₀ (b, e.2)).join) := by
            unfold expandExpected
            rw [if_neg (fun h => hyr h.symm), hrP, hry]
          rw [hIH e.2 hePQ.2.2.2 y hy, hE2, if_neg hrB]
          have hE' : expandExpected m₀ (R.map Prod.fst) (P ++ [e]) (x, y) =
              some (if e.2 = b then some 0 else (m₀ (e.2, b)).join) := by
            unfold expandExpected
            rw [if_neg hxy, hrep1, hrep2, hry]
          rw [hE']
          by_cases hrb : e.2 = b
          · rw [if_pos hrb, if_pos hrb]
            rfl
          · rw [if_neg hrb, if_neg hrb, hsym b e.2]
            rfl
        | none =>
          by_cases hyB : y ∈ R.map Prod.fst
          · have hyr : y ≠ e.2 := fun h => hrB (h ▸ hyB)
            rw [if_neg hyr]
            have hE2 : expandExpected m₀ (R.map Prod.fst) P (e.2, y) =
                m₀ (e.2, y) := by
              unfold expandExpected
              rw [if_neg (fun h => hyr h.symm), hrP, hry]
            have hE' : expandExpected m₀ (R.map Prod.fst) (P ++ [e]) (x, y) =
                some none := by
              unfold expandExpected
              rw [if_neg hxy, hrep1, hrep2, hry]
              simp [hyB]
            rw [hIH e.2 hePQ.2.2.2 y hy, hE2, habs e.2 y (Or.inr hyB), hE']
            rfl
          · have hE' : expandExpected m₀ (R.map Prod.fst) (P ++ [e]) (x, y) =
                some (if y = e.2 then some 0 else (m₀ (e.2, y)).join) := by
              unfold expandExpected
              rw [if_neg hxy, hrep1, hrep2, hry]
              simp [hyB]
            rw [hE']
            by_cases hyr : y = e.2
            · rw [if_pos hyr, if_pos hyr]
            · rw [if_neg hyr, if_neg hyr]
              have hE2 : expandExpected m₀ (R.map Prod.fst) P (e.2, y) =
                  m₀ (e.2, y) := by
                unfold expandExpected
                rw [if_neg (fun h => hyr h.symm), hrP, hry]
              rw [hIH e.2 hePQ.2.2.2 y hy, hE2]
      · rw [if_neg (fun h => hx1 h.1)]
        by_cases hy1 : y = e.1
        · have hxne : x ≠ e.1 := hx1
          rw [if_pos ⟨hy1, hxne, hx⟩]
          have hrep2 : repIn (P ++ [e]) y = some e.2 := by
            rw [hy1]
            exact repIn_append_last P e hfstP
          have hrep1 : repIn (P ++ [e]) x = repIn P x :=
            repIn_append_of_ne P e x hxne
          cases hrx : repIn P x with
          | some a =>
            obtain ⟨dr, hdrP, hdr1, hdr2⟩ := repIn_mem P x a hrx
            have hxB : x ∈ R.map Prod.fst :=
              hsub x (List.mem_map.mpr ⟨dr, hdrP, hdr1⟩)
            have hxr : x ≠ e.2 := fun h => hrB (h ▸ hxB)
            rw [if_neg hxr]
            have hE2 : expandExpected m₀ (R.map Prod.fst) P (e.2, x) =
                if e.2 ∈ R.map Prod.fst then some none
                else some (if e.2 = a then some 0 else (m₀ (a, e.2)).join) := by
              unfold expandExpected
              rw [if_neg (fun h => hxr h.symm), hrP, hrx]
            rw [hIH e.2 hePQ.2.2.2 x hx, hE2, if_neg hrB]
            have hE' : expandExpected m₀ (R.map Prod.fst) (P ++ [e]) (x, y) =
                some (if a = e.2 then some 0 else (m₀ (a, e.2)).join) := by
              unfold expandExpected
              rw [if_neg hxy, hrep1, hrep2, hrx]
            rw [hE']
            by_cases hra : e.2 = a
            · rw [if_pos hra, if_pos hra.symm]
              rfl
            · rw [if_neg hra, if_neg (fun h => hra h.symm)]
              rfl
          | none =>
            by_cases hxB : x ∈ R.map Prod.fst
            · have hxr : x ≠ e.2 := fun h => hrB (h ▸ hxB)
              rw [if_neg hxr]
              have hE2 : expandExpected m₀ (R.map Prod.fst) P (e.2, x) =
                  m₀ (e.2, x) := by
                unfold expandExpected
                rw [if_neg (fun h => hxr h.symm), hrP, hrx]
              have hE' : expandExpected m₀ (R.map Prod.fst) (P ++ [e]) (x, y) =
                  some none := by
                unfold expandExpected
                rw [if_neg hxy, hrep1, hrep2, hrx]
                simp [hxB]
              rw [hIH e.2 hePQ.2.2.2 x hx, hE2, habs e.2 x (Or.inr hxB), hE']
              rfl
            · have hE' : expandExpected m₀ (R.map Prod.fst) (P ++ [e]) (x, y) =
                  some (if x = e.2 then some 0 else (m₀ (e.2, x)).join) := by
                unfold expandExpected
                rw [if_neg hxy, hrep1, hrep2, hrx]
                simp [hxB]
              rw [hE']
              by_cases hxr : x = e.2
              · rw [if_pos hxr, if_pos hxr]
              · rw [if_neg hxr, if_neg hxr]
                have hE2 : expandExpected m₀ (R.map Prod.fst) P (e.2, x) =
                    m₀ (e.2, x) := by
                  unfold expandExpected
                  rw [if_neg (fun h => hxr h.symm), hrP, hrx]
                rw [hIH e.2 hePQ.2.2.2 x hx, hE2]
        · rw [if_neg (fun h => hy1 h.1)]
          rw [hIH x hx y hy]
          unfold expandExpected
          rw [repIn_append_of_ne P e x hx1, repIn_append_of_ne P e y hy1]

/-- The `(representative, duplicate)` name pairs recorded by a run — the
flattened form of the `duplicated` property's mapping. -/
def duplicatedPairs {α : Type} (st : RunState α) (names : List String) :
    List (String × String) :=
  st.duped.map fun rd => (names.getD rd.1 "", names.getD rd.2 "")

theorem redundant_firsts {α : Type} (st : RunState α) (names : List String) :
    (redundantPairs st names).map Prod.fst = dupeNames st names := by
  unfold redundantPairs dupeNames RunState.dupes
  rw [List.map_map, List.map_map]
  rfl

theorem runLoop_dupes_lt {α : Type} (K : ℕ) (f : Matrix (Fin K) (Fin K) ℕ → α)
    (seqs : List (List ℤ)) (names : List String) :
    ∀ d ∈ (runLoop K f seqs names).dupes, d < names.length := by
  intro d hd
  unfold RunState.dupes at hd
  obtain ⟨rd, hrd, hrd2⟩ := List.mem_map.mp hd
  have := (runLoop_inv K f seqs names).2 rd hrd
  omega

theorem not_mem_dupeNames {α : Type} (K : ℕ) (f : Matrix (Fin K) (Fin K) ℕ → α)
    (seqs : List (List ℤ)) (names : List String) (hnd : names.Nodup)
    {i : ℕ} (hi : i < names.length)
    (hdi : i ∉ (runLoop K f seqs names).dupes) :
    names.getD i "" ∉ dupeNames (runLoop K f seqs names) names := by
  intro hmem
  unfold dupeNames at hmem
  obtain ⟨d, hd, hgd⟩ := List.mem_map.mp hmem
  have hdn : d < names.length := runLoop_dupes_lt K f seqs names d hd
  have := names_getD_inj names hnd hdn hi hgd
  subst this
  exact hdi hd

theorem runClean_eq_of_not_dupe {α : Type} (st : RunState α) (names : List String)
    (u v : String) (hu : u ∉ dupeNames st names) (hv : v ∉ dupeNames st names) :
    runClean st names (u, v) = st.dists (u, v) := by
  unfold runClean
  split_ifs with h
  · rfl
  · show (if u ∈ dupeNames st names ∨ v ∈ dupeNames st names then none else st.dists (u, v)) =
      st.dists (u, v)
    rw [if_neg]
    rintro (hh | hh)
    · exact hu hh
    · exact hv hh

theorem dupeNames_nodup {α : Type} (K : ℕ) (f : Matrix (Fin K) (Fin K) ℕ → α)
    (seqs : List (List ℤ)) (names : List String) (hnd : names.Nodup) :
    (dupeNames (runLoop K f seqs names) names).Nodup := by
  unfold dupeNames
  apply List.Nodup.map_on
  · intro d hd d' hd' hgd
    exact names_getD_inj names hnd (runLoop_dupes_lt K f seqs names d hd)
      (runLoop_dupes_lt K f seqs names d' hd') hgd
  · exact (runLoop_inv K f seqs names).1

theorem getD_mem_names (names : List String) {i : ℕ} (hi : i < names.length) :
    names.getD i "" ∈ names := by
  rw [List.getD_eq_getElem _ _ hi]
  exact List.getElem_mem hi

theorem statView_presence {α : Type} (K : ℕ) (f : Matrix (Fin K) (Fin K) ℕ → α)
    (g : α → Option ℝ) (seqs : List (List ℤ)) (names : List String)
    (hnd : names.Nodup) (u v : String) (hu : u ∈ names) (hv : v ∈ names)
    (huv : u ≠ v)
    (hud : u ∉ dupeNames (runLoop K f seqs names) names)
    (hvd : v ∉ dupeNames (runLoop K f seqs names) names) :
    ∃ w, statView g (runClean (runLoop K f seqs names) names) (u, v) = some w := by
  obtain ⟨iu, hiu, hgu⟩ := List.mem_iff_getElem.mp hu
  obtain ⟨iv, hiv, hgv⟩ := List.mem_iff_getElem.mp hv
  have hgu' : names.getD iu "" = u := by rw [List.getD_eq_getElem _ _ hiu, hgu]
  have hgv' : names.getD iv "" = v := by rw [List.getD_eq_getElem _ _ hiv, hgv]
  have hiud : iu ∉ (runLoop K f seqs names).dupes := by
    intro hmem
    exact hud (hgu' ▸ List.mem_map.mpr ⟨iu, hmem, rfl⟩)
  have hivd : iv ∉ (runLoop K f seqs names).dupes := by
    intro hmem
    exact hvd (hgv' ▸ List.mem_map.mpr ⟨iv, hmem, rfl⟩)
  have hne : iu ≠ iv := by
    intro hh
    subst hh
    exact huv (hgu'.symm.trans hgv')
  have hdist : ∃ s, (runLoop K f seqs names).dists (u, v) = some s := by
    rcases lt_or_gt_of_ne hne with hlt | hgt
    · have hp := runLoop_presence K f seqs names hnd hlt hiv hiud hivd
      exact ⟨_, by rw [← hgu', ← hgv']; exact hp.1⟩
    · have hp := runLoop_presence K f seqs names hnd hgt hiu hivd hiud
      exact ⟨_, by rw [← hgu', ← hgv']; exact hp.2⟩
  obtain ⟨s, hs⟩ := hdist
  refine ⟨g s, ?_⟩
  unfold statView
  rw [runClean_eq_of_not_dupe _ _ _ _ hud hvd, hs]
  rfl

/-- C4: when name `B` is recorded as a duplicate of representative `A`, the
duplicate-expanded per-statistic matrix gives every other name `C` the same
entry at `(B, C)` as at `(A, C)`, and gives `(A, B)` the entry `0`. -/
theorem duplicate_expansion_correct {α : Type} (K : ℕ)
    (f : Matrix (Fin K) (Fin K) ℕ → α) (g : α → Option ℝ)
    (seqs : List (List ℤ)) (names : List String) (hnd : names.Nodup)
    (A B : String)
    (hAB : (A, B) ∈ duplicatedPairs (runLoop K f seqs names) names) :
    (∀ C ∈ names, C ≠ A → C ≠ B →
      expandedView K f g seqs names (B, C) = expandedView K f g seqs names (A, C)) ∧
    expandedView K f g seqs names (A, B) = some (some 0) := by
  have hinv := runLoop_inv K f seqs names
  obtain ⟨rd, hrd, hABeq⟩ := List.mem_map.mp hAB
  rw [Prod.mk.injEq] at hABeq
  obtain ⟨hA, hB⟩ := hABeq
  have hfacts := hinv.2 rd hrd
  have h1n : rd.1 < names.length := lt_trans hfacts.1 hfacts.2.1
  have hAin : A ∈ names := hA ▸ getD_mem_names names h1n
  have hBin : B ∈ names := hB ▸ getD_mem_names names hfacts.2.1
  have hdupes2 : rd.2 ∈ (runLoop K f seqs names).dupes :=
    List.mem_map.mpr ⟨rd, hrd, rfl⟩
  have hBdup : B ∈ dupeNames (runLoop K f seqs names) names := by
    rw [← hB]
    exact List.mem_map.mpr ⟨rd.2, hdupes2, rfl⟩
  have hAnd : A ∉ dupeNames (runLoop K f seqs names) names := by
    rw [← hA]
    exact not_mem_dupeNames K f seqs names hnd h1n hfacts.2.2.2
  have hABne : A ≠ B := by
    rw [← hA, ← hB]
    intro hh
    have := names_getD_inj names hnd h1n hfacts.2.1 hh
    omega
  have hBA : (B, A) ∈ redundantPairs (runLoop K f seqs names) names := by
    unfold redundantPairs
    refine List.mem_map.mpr ⟨rd, hrd, ?_⟩
    rw [Prod.mk.injEq]
    exact ⟨hB, hA⟩
  have hRfst := redundant_firsts (runLoop K f seqs names) names
  have hsym0 : SymmMap (statView g (runClean (runLoop K f seqs names) names)) :=
    symm_statView g _ (symm_runClean _ _ (symm_runLoop K f seqs names))
  have hfst : ((redundantPairs (runLoop K f seqs names) names).map Prod.fst).Nodup := by
    rw [hRfst]
    exact dupeNames_nodup K f seqs names hnd
  have hents : ∀ dr ∈ redundantPairs (runLoop K f seqs names) names,
      dr.1 ≠ dr.2 ∧
      dr.2 ∉ (redundantPairs (runLoop K f seqs names) names).map Prod.fst ∧
      dr.1 ∈ names ∧ dr.2 ∈ names := by
    intro dr hdr
    obtain ⟨rd', hrd', heq⟩ := List.mem_map.mp hdr
    have hf := hinv.2 rd' hrd'
    have h1n' : rd'.1 < names.length := lt_trans hf.1 hf.2.1
    rw [← heq]
    refine ⟨?_, ?_, getD_mem_names names hf.2.1, getD_mem_names names h1n'⟩
    · intro hh
      have := names_getD_inj names hnd hf.2.1 h1n' hh
      omega
    · rw [hRfst]
      exact not_mem_dupeNames K f seqs names hnd h1n' hf.2.2.2
  have hnenil : (runLoop K f seqs names).duped ≠ [] := by
    intro hh
    rw [hh] at hrd
    simp at hrd
  have habs : ∀ x y : String,
      (x ∈ (redundantPairs (runLoop K f seqs names) names).map Prod.fst ∨
       y ∈ (redundantPairs (runLoop K f seqs names) names).map Prod.fst) →
      statView g (runClean (runLoop K f seqs names) names) (x, y) = none := by
    intro x y hxy
    rw [hRfst] at hxy
    have hcl : runClean (runLoop K f seqs names) names (x, y) = none := by
      unfold runClean
      rw [if_neg hnenil]
      show (if x ∈ dupeNames (runLoop K f seqs names) names ∨
              y ∈ dupeNames (runLoop K f seqs names) names then none
            else (runLoop K f seqs names).dists (x, y)) = none
      rw [if_pos hxy]
    unfold statView
    rw [hcl]
    rfl
  have hchar : ∀ x ∈ names, ∀ y ∈ names,
      expandedView K f g seqs names (x, y) =
        expandExpected (statView g (runClean (runLoop K f seqs names) names))
          ((redundantPairs (runLoop K f seqs names) names).map Prod.fst)
          (redundantPairs (runLoop K f seqs names) names) (x, y) := by
    intro x hx y hy
    unfold expandedView expandAll
    exact expandAll_expected names _ _ hsym0 hfst hents habs _ [] (by simp) x hx y hy
  have hrepB : repIn (redundantPairs (runLoop K f seqs names) names) B = some A :=
    repIn_of_mem_nodup _ hfst B A hBA
  have hrepA : repIn (redundantPairs (runLoop K f seqs names) names) A = none := by
    apply repIn_of_not_mem_firsts
    rw [hRfst]
    exact hAnd
  have hgoal2 : expandedView K f g seqs names (A, B) = some (some 0) := by
    rw [hchar A hAin B hBin]
    unfold expandExpected
    rw [if_neg hABne, hrepA, hrepB]
    simp [hRfst, hAnd]
  refine ⟨?_, hgoal2⟩
  intro C hCin hCA hCB
  rw [hchar B hBin C hCin, hchar A hAin C hCin]
  have hBC : B ≠ C := fun h => hCB h.symm
  have hAC : A ≠ C := fun h => hCA h.symm
  cases hrC : repIn (redundantPairs (runLoop K f seqs names) names) C with
  | some Rc =>
    have hE1 : expandExpected (statView g (runClean (runLoop K f seqs names) names))
        ((redundantPairs (runLoop K f seqs names) names).map Prod.fst)
        (redundantPairs (runLoop K f seqs names) names) (B, C) =
        some (if A = Rc then some 0
          else ((statView g (runClean (runLoop K f seqs names) names)) (A, Rc)).join) := by
      unfold expandExpected
      rw [if_neg hBC, hrepB, hrC]
    have hE2 : expandExpected (statView g (runClean (runLoop K f seqs names) names))
        ((redundantPairs (runLoop K f seqs names) names).map Prod.fst)
        (redundantPairs (runLoop K f seqs names) names) (A, C) =
        some (if A = Rc then some 0
          else ((statView g (runClean (runLoop K f seqs names) names)) (Rc, A)).join) := by
      unfold expandExpected
      rw [if_neg hAC, hrepA, hrC]
      show (if A ∈ (redundantPairs (runLoop K f seqs names) names).map Prod.fst then
              some none
            else some (if A = Rc then some 0
              else ((statView g (runClean (runLoop K f seqs names) names)) (Rc, A)).join)) =
        some (if A = Rc then some 0
          else ((statView g (runClean (runLoop K f seqs names) names)) (Rc, A)).join)
      rw [hRfst, if_neg hAnd]
    rw [hE1, hE2]
    by_cases hARc : A = Rc
    · rw [if_pos hARc, if_pos hARc]
    · rw [if_neg hARc, if_neg hARc, hsym0 Rc A]
  | none =>
    have hCnd : C ∉ dupeNames (runLoop K f seqs names) names := by
      intro hc
      obtain ⟨b, hb⟩ := repIn_isSome_of_mem_firsts
        (redundantPairs (runLoop K f seqs names) names) C (by rw [hRfst]; exact hc)
      rw [hrC] at hb
      simp at hb
    have hE1 : expandExpected (statView g (runClean (runLoop K f seqs names) names))
        ((redundantPairs (runLoop K f seqs names) names).map Prod.fst)
        (redundantPairs (runLoop K f seqs names) names) (B, C) =
        some (((statView g (runClean (runLoop K f seqs names) names)) (A, C)).join) := by
      unfold expandExpected
      rw [if_neg hBC, hrepB, hrC]
      simp [hRfst, hCnd, hCA]
    have hE2 : expandExpected (statView g (runClean (runLoop K f seqs names) names))
        ((redundantPairs (runLoop K f seqs names) names).map Prod.fst)
        (redundantPairs (runLoop K f seqs names) names) (A, C) =
        (statView g (runClean (runLoop K f seqs names) names)) (A, C) := by
      unfold expandExpected
      rw [if_neg hAC, hrepA, hrC]
    obtain ⟨w, hw⟩ := statView_presence K f g seqs names hnd A C hAin hCin hAC hAnd hCnd
    rw [hE1, hE2, hw]
    rfl

/-- Witness for `duplicate_expansion_correct` on a concrete run in which the
second sequence duplicates the first: the expanded entry at the
(representative, duplicate) pair is `0`, and the duplicate's entry against
the third name copies the representative's. -/
theorem duplicate_expansion_witness :
    expandedView 2 (fun _ => (0 : ℕ)) (fun _ => some 1)
      [[0, 0], [0, 0], [0, 1]] ["a", "b", "c"] ("a", "b") = some (some 0) ∧
    expandedView 2 (fun _ => (0 : ℕ)) (fun _ => some 1)
      [[0, 0], [0, 0], [0, 1]] ["a", "b", "c"] ("b", "c") =
    expandedView 2 (fun _ => (0 : ℕ)) (fun _ => some 1)
      [[0, 0], [0, 0], [0, 1]] ["a", "b", "c"] ("a", "c") :=
  ⟨(duplicate_expansion_correct 2 (fun _ => (0 : ℕ)) (fun _ => some 1)
      [[0, 0], [0, 0], [0, 1]] ["a", "b", "c"] (by decide) "a" "b" (by decide)).2,
   (duplicate_expansion_correct 2 (fun _ => (0 : ℕ)) (fun _ => some 1)
      [[0, 0], [0, 0], [0, 1]] ["a", "b", "c"] (by decide) "a" "b" (by decide)).1
     "c" (by decide) (by decide) (by decide)⟩
